import Mathlib

/-!
Query-parser lexer (`src/lexer/lexer.go`).

A shallow embedding of the Go lexer.  Go strings are byte sequences and are
modelled as `List Nat` (every element a byte, that is, below 256); `int` is
modelled as `Nat` (the cursor fields start at 0 and are only ever
incremented, and `int` is treated as unbounded).  A Go runtime panic (index
or slice out of range) is the fault `outOfBounds`; the `for` loops are
modelled with a fuel argument and running out of it is the fault
`outOfFuel`.
-/

namespace lexer

/-- Ways in which a modelled call can fail to return a value. -/
inductive Fault where
  | outOfBounds
  | outOfFuel
  deriving DecidableEq, Repr

/-- Go `type TokenType string`; all values in the program are ASCII constants. -/
abbrev TokenType := String

/-- Go `type Token struct { Type TokenType; Literal string }`
(`Type` is reserved in Lean, so the field is called `Typ`). -/
structure Token where
  Typ : TokenType
  Literal : List Nat
  deriving DecidableEq, Repr

/-- Bytes of an ASCII string constant of the source. -/
def bytes (s : String) : List Nat := s.toList.map Char.toNat

/-- Go `s[i]` on a string: the byte at `i`, or a panic when `i` is out of range. -/
def index (s : List Nat) (i : Nat) : Except Fault Nat :=
  match s[i]? with
  | some b => .ok b
  | none => .error .outOfBounds

/-- Go `s[lo:hi]` on a string: panics unless `lo <= hi <= len(s)`. -/
def slice (s : List Nat) (lo hi : Nat) : Except Fault (List Nat) :=
  if lo ≤ hi ∧ hi ≤ s.length then .ok ((s.drop lo).take (hi - lo))
  else .error .outOfBounds

/-- Go `string(ch)` for `ch byte`: the UTF-8 encoding of the code point `ch`. -/
def byteToString (ch : Nat) : List Nat :=
  if ch < 128 then [ch] else [192 + ch / 64, 128 + ch % 64]

/-- Go `newToken`. -/
def newToken (tokenType : TokenType) (ch : Nat) : Token :=
  { Typ := tokenType, Literal := byteToString ch }

/-- Go `newTokenFromLiteral`. -/
def newTokenFromLiteral (tokenType : TokenType) (literal : List Nat) : Token :=
  { Typ := tokenType, Literal := literal }

def Illegal : TokenType := "Illegal"
def Eof : TokenType := "Eof"
def Identifier : TokenType := "Identifier"
def Assign : TokenType := "="
def ParamStart : TokenType := "?"
def LeftParenthesis : TokenType := "("
def RightParenthesis : TokenType := ")"
def Comma : TokenType := ","
def Slash : TokenType := "/"
def Equals : TokenType := "equals"
def LessThan : TokenType := "lessThan"
def LessOrEqual : TokenType := "lessOrEqual"
def GreaterThan : TokenType := "greaterThan"
def GreaterOrEqual : TokenType := "greaterOrEqual"
def Contains : TokenType := "contains"
def StartWith : TokenType := "startsWith"
def EndsWith : TokenType := "endsWith"
def Any : TokenType := "any"
def Has : TokenType := "has"
def Not : TokenType := "not"
def Or : TokenType := "or"
def And : TokenType := "and"
def Filter : TokenType := "filter"
def Null : TokenType := "null"

/-- Go `var keywords = map[string]TokenType{...}` as an association list
(the keys are pairwise distinct, so lookup order is immaterial). -/
def keywords : List (List Nat × TokenType) :=
  [ (bytes "filter", Filter),
    (bytes "equals", Equals),
    (bytes "lessThan", LessThan),
    (bytes "lessOrEqual", LessOrEqual),
    (bytes "greaterThan", GreaterThan),
    (bytes "greaterOrEqual", GreaterOrEqual),
    (bytes "contains", Contains),
    (bytes "startsWith", StartWith),
    (bytes "endsWith", EndsWith),
    (bytes "any", Any),
    (bytes "has", Has),
    (bytes "not", Not),
    (bytes "or", Or),
    (bytes "and", And),
    (bytes "null", Null) ]

/-- Go `lookUpIdentifier`. -/
def lookUpIdentifier (ident : List Nat) : TokenType :=
  match keywords.lookup ident with
  | some tok => tok
  | none => Identifier

/-- Go `type Lexer struct`. -/
structure Lexer where
  input : List Nat
  position : Nat
  readPosition : Nat
  ch : Nat
  deriving DecidableEq, Repr

/-- Go `isLetter`. -/
def isLetter (ch : Nat) : Bool :=
  (97 ≤ ch && ch ≤ 122) || (65 ≤ ch && ch ≤ 90)

/-- Go `(*Lexer).readChar`. -/
def readChar (l : Lexer) : Except Fault Lexer := do
  let ch ← if l.readPosition ≥ l.input.length then pure 0 else index l.input l.readPosition
  pure { l with ch := ch, position := l.readPosition, readPosition := l.readPosition + 1 }

/-- Go `(*Lexer).peekChar`. -/
def peekChar (l : Lexer) : Except Fault Nat :=
  if l.readPosition ≥ l.input.length then pure 0 else index l.input l.readPosition

/-- Go `(*Lexer).peekChar2`. -/
def peekChar2 (l : Lexer) : Except Fault Nat :=
  if l.readPosition + 1 ≥ l.input.length then pure 0 else index l.input (l.readPosition + 1)

/-- The loop guard of `skipWhiteSpace`,
`l.ch == '%' && l.peekChar() == '2' && l.peekChar2() == '0'`, with Go's
short-circuit evaluation. -/
def skipGuard (l : Lexer) : Except Fault Bool := do
  if l.ch = 37 then
    let p ← peekChar l
    if p = 50 then
      let q ← peekChar2 l
      pure (decide (q = 48))
    else pure false
  else pure false

/-- Go `(*Lexer).skipWhiteSpace`; one unit of fuel per evaluation of the guard. -/
def skipWhiteSpace : Nat → Lexer → Except Fault Lexer
  | 0, _ => .error .outOfFuel
  | fuel + 1, l => do
    if (← skipGuard l) then
      let l ← readChar l
      let l ← readChar l
      skipWhiteSpace fuel l
    else pure l

/-- The `for l.peekChar() != '\'' { l.readChar() }` loop of `readQuoted`. -/
def readQuotedLoop : Nat → Lexer → Except Fault Lexer
  | 0, _ => .error .outOfFuel
  | fuel + 1, l => do
    let p ← peekChar l
    if p ≠ 39 then
      let l ← readChar l
      readQuotedLoop fuel l
    else pure l

/-- Go `(*Lexer).readQuoted`: the returned string and the lexer afterwards. -/
def readQuoted (fuel : Nat) (l : Lexer) : Except Fault (List Nat × Lexer) := do
  let position := l.position
  let l ← readQuotedLoop fuel l
  let s ← slice l.input position l.position
  pure (s, l)

/-- The `for isLetter(l.ch) { l.readChar() }` loop of `readIdentifier`. -/
def readIdentifierLoop : Nat → Lexer → Except Fault Lexer
  | 0, _ => .error .outOfFuel
  | fuel + 1, l => do
    if isLetter l.ch then
      let l ← readChar l
      readIdentifierLoop fuel l
    else pure l

/-- Go `(*Lexer).readIdentifier`: the returned string and the lexer afterwards. -/
def readIdentifier (fuel : Nat) (l : Lexer) : Except Fault (List Nat × Lexer) := do
  let position := l.position
  let l ← readIdentifierLoop fuel l
  let s ← slice l.input position l.position
  pure (s, l)

/-- Go `New`: the zero-valued lexer over `input`, after one `readChar`. -/
def New (input : List Nat) : Except Fault Lexer :=
  readChar { input := input, position := 0, readPosition := 0, ch := 0 }

/-- The tail of `NextToken` after the `switch`: `l.readChar(); return tok`. -/
def advance (tok : Token) (l : Lexer) : Except Fault (Token × Lexer) := do
  let l ← readChar l
  pure (tok, l)

/-- The `switch l.ch` statement of `NextToken` and the code after it, run on the
lexer that `skipWhiteSpace` leaves. -/
def dispatch (fuel : Nat) (l : Lexer) : Except Fault (Token × Lexer) :=
  if l.ch = 63 then advance (newToken ParamStart l.ch) l
  else if l.ch = 61 then advance (newToken Equals l.ch) l
  else if l.ch = 40 then advance (newToken LeftParenthesis l.ch) l
  else if l.ch = 41 then advance (newToken RightParenthesis l.ch) l
  else if l.ch = 0 then advance (newToken Eof 32) l
  else if l.ch = 39 then do
    let (quoted, l) ← readQuoted fuel l
    advance (newTokenFromLiteral Identifier quoted) l
  else if l.ch = 44 then advance (newToken Comma l.ch) l
  else if isLetter l.ch then do
    let (literal, l) ← readIdentifier fuel l
    if lookUpIdentifier literal = Identifier then
      pure ({ Typ := Identifier, Literal := literal }, l)
    else
      pure ({ Typ := "Keyword", Literal := literal }, l)
  else
    pure (newToken Illegal l.ch, l)

/-- Go `(*Lexer).NextToken`: the returned token and the lexer afterwards. -/
def NextToken (fuel : Nat) (l : Lexer) : Except Fault (Token × Lexer) := do
  let l ← skipWhiteSpace fuel l
  dispatch fuel l

/-- The caller's loop: `n` successive `NextToken` calls, collecting the tokens. -/
def nextTokens (fuel : Nat) : Nat → Lexer → Except Fault (List Token × Lexer)
  | 0, l => pure ([], l)
  | n + 1, l => do
    let (t, l) ← NextToken fuel l
    let (ts, l) ← nextTokens fuel n l
    pure (t :: ts, l)

/-- `New(input)` followed by `n` successive `NextToken` calls. -/
def tokenize (fuel n : Nat) (input : List Nat) : Except Fault (List Token × Lexer) := do
  let l ← New input
  nextTokens fuel n l

/-- Scanner states reachable from `New(input)` by `NextToken` calls that return. -/
inductive Reachable (input : List Nat) : Lexer → Prop where
  | new {l : Lexer} : New input = .ok l → Reachable input l
  | next {l l' : Lexer} {t : Token} {fuel : Nat} :
      Reachable input l → NextToken fuel l = .ok (t, l') → Reachable input l'

/-- The lexer after one `readChar`, as a pure function. -/
def step (l : Lexer) : Lexer :=
  { l with ch := l.input[l.readPosition]?.getD 0,
           position := l.readPosition,
           readPosition := l.readPosition + 1 }

/-- The guard of the `skipWhiteSpace` loop as a proposition on the state. -/
def AtEncodedSpace (l : Lexer) : Prop :=
  l.ch = 37 ∧ l.input[l.readPosition]?.getD 0 = 50 ∧ l.input[l.readPosition + 1]?.getD 0 = 48

instance (l : Lexer) : Decidable (AtEncodedSpace l) := by
  unfold AtEncodedSpace; infer_instance

/-- The scanner state over `s` whose current offset is `p`: the next-read
offset is `p + 1` and the current character is the byte at `p`, or 0 past the end. -/
def cursor (s : List Nat) (p : Nat) : Lexer :=
  { input := s, position := p, readPosition := p + 1, ch := s[p]?.getD 0 }

/-- The lexer after `skipWhiteSpace`, as a pure function: the loop body runs
once at an encoded space and not at all elsewhere. -/
def skipped (l : Lexer) : Lexer :=
  if AtEncodedSpace l then step (step l) else l

/-- Length of the maximal prefix of ASCII letters. -/
def letterRun (s : List Nat) : Nat := (s.takeWhile isLetter).length

/-- The 15 reserved words, in the order the specification lists them. -/
def reservedWords : List (List Nat) :=
  [ bytes "equals", bytes "lessThan", bytes "lessOrEqual", bytes "greaterThan",
    bytes "greaterOrEqual", bytes "contains", bytes "startsWith", bytes "endsWith",
    bytes "any", bytes "has", bytes "not", bytes "or", bytes "and", bytes "filter",
    bytes "null" ]

/-- The token returned at end of input: `newToken(Eof, ' ')`. -/
def eofToken : Token := { Typ := Eof, Literal := [32] }

/-- The input of `TestNextToken` in `lexer_test.go`. -/
def testInput : List Nat := bytes "courses?filter=equals(displayName,'Brian Connor')"

/-- The scanner-state invariant: the next-read offset is the current offset plus one
and the current character is the byte at the current offset, or 0 past the end. -/
def WellFormed (l : Lexer) : Prop :=
  l.readPosition = l.position + 1 ∧ l.ch = l.input[l.position]?.getD 0

/-- The lexer after `n` successive `readChar` calls. -/
def readChars : Nat → Lexer → Except Fault Lexer
  | 0, l => pure l
  | n + 1, l => do
    let l ← readChar l
    readChars n l

/-! ## Basic facts about the primitive operations -/

theorem index_of_lt {s : List Nat} {i : Nat} (h : i < s.length) :
    index s i = .ok (s[i]?.getD 0) := by
  simp [index, List.getElem?_eq_getElem h]

theorem readChar_eq (l : Lexer) : readChar l = .ok (step l) := by
  unfold readChar step
  by_cases h : l.readPosition ≥ l.input.length
  · have h' : l.input.length ≤ l.readPosition := h
    simp [h, List.getElem?_eq_none h', bind, Except.bind, pure, Except.pure]
  · have h' : l.readPosition < l.input.length := Nat.lt_of_not_ge h
    simp [h, index_of_lt h', bind, Except.bind, pure, Except.pure]

theorem peekChar_eq (l : Lexer) : peekChar l = .ok (l.input[l.readPosition]?.getD 0) := by
  unfold peekChar
  by_cases h : l.readPosition ≥ l.input.length
  · have h' : l.input.length ≤ l.readPosition := h
    simp [h, List.getElem?_eq_none h', pure, Except.pure]
  · have h' : l.readPosition < l.input.length := Nat.lt_of_not_ge h
    simp [h, index_of_lt h']

theorem peekChar2_eq (l : Lexer) :
    peekChar2 l = .ok (l.input[l.readPosition + 1]?.getD 0) := by
  unfold peekChar2
  by_cases h : l.readPosition + 1 ≥ l.input.length
  · have h' : l.input.length ≤ l.readPosition + 1 := h
    simp [h, List.getElem?_eq_none h', pure, Except.pure]
  · have h' : l.readPosition + 1 < l.input.length := Nat.lt_of_not_ge h
    simp [h, index_of_lt h']

theorem skipGuard_eq (l : Lexer) : skipGuard l = .ok (decide (AtEncodedSpace l)) := by
  unfold skipGuard AtEncodedSpace
  simp only [peekChar_eq, peekChar2_eq, bind, Except.bind, pure, Except.pure]
  by_cases h1 : l.ch = 37 <;> by_cases h2 : l.input[l.readPosition]?.getD 0 = 50 <;>
    simp [h1, h2]

theorem skipWhiteSpace_succ (fuel : Nat) (l : Lexer) :
    skipWhiteSpace (fuel + 1) l =
      if AtEncodedSpace l then skipWhiteSpace fuel (step (step l)) else .ok l := by
  rw [skipWhiteSpace]
  simp only [skipGuard_eq, readChar_eq, bind, Except.bind, pure, Except.pure]
  by_cases h : AtEncodedSpace l <;> simp [h]

theorem readQuotedLoop_succ (fuel : Nat) (l : Lexer) :
    readQuotedLoop (fuel + 1) l =
      if l.input[l.readPosition]?.getD 0 ≠ 39 then readQuotedLoop fuel (step l) else .ok l := by
  rw [readQuotedLoop]
  simp only [peekChar_eq, readChar_eq, bind, Except.bind, pure, Except.pure]

theorem readIdentifierLoop_succ (fuel : Nat) (l : Lexer) :
    readIdentifierLoop (fuel + 1) l =
      if isLetter l.ch then readIdentifierLoop fuel (step l) else .ok l := by
  rw [readIdentifierLoop]
  simp only [readChar_eq, bind, Except.bind, pure, Except.pure]

theorem New_eq (input : List Nat) :
    New input = .ok { input := input, position := 0, readPosition := 1,
                      ch := input[0]?.getD 0 } := by
  simp [New, readChar_eq, step]

theorem advance_eq (tok : Token) (l : Lexer) : advance tok l = .ok (tok, step l) := by
  simp [advance, readChar_eq, bind, Except.bind, pure, Except.pure]

/-! ## Cursor states -/

@[simp] theorem cursor_input (s : List Nat) (p : Nat) : (cursor s p).input = s := rfl

@[simp] theorem cursor_position (s : List Nat) (p : Nat) : (cursor s p).position = p := rfl

@[simp] theorem cursor_readPosition (s : List Nat) (p : Nat) :
    (cursor s p).readPosition = p + 1 := rfl

@[simp] theorem cursor_ch (s : List Nat) (p : Nat) : (cursor s p).ch = s[p]?.getD 0 := rfl

theorem step_eq_cursor (l : Lexer) : step l = cursor l.input l.readPosition := rfl

theorem step_cursor (s : List Nat) (p : Nat) : step (cursor s p) = cursor s (p + 1) := rfl

theorem New_cursor (input : List Nat) : New input = .ok (cursor input 0) := New_eq input

theorem cursor_ch_of_le {s : List Nat} {p : Nat} (h : s.length ≤ p) : (cursor s p).ch = 0 := by
  simp [cursor, List.getElem?_eq_none h]

theorem lt_of_getD_ne_zero {s : List Nat} {p : Nat} (h : s[p]?.getD 0 ≠ 0) :
    p < s.length := by
  by_contra hp
  exact h (by simp [List.getElem?_eq_none (Nat.le_of_not_lt hp)])

theorem isLetter_ne {c : Nat} (h : isLetter c = true) :
    c ≠ 63 ∧ c ≠ 61 ∧ c ≠ 40 ∧ c ≠ 41 ∧ c ≠ 0 ∧ c ≠ 39 ∧ c ≠ 44 ∧ c ≠ 37 := by
  simp [isLetter] at h
  omega

theorem not_atEncodedSpace_step_step {l : Lexer} (hl : AtEncodedSpace l) :
    ¬ AtEncodedSpace (step (step l)) := by
  intro h
  obtain ⟨_, _, h3⟩ := hl
  obtain ⟨h1, _, _⟩ := h
  simp [step] at h1
  omega

/-- With two units of fuel or more the `skipWhiteSpace` loop returns, having run
its body at most once. -/
theorem skipWhiteSpace_eq (fuel : Nat) (l : Lexer) :
    skipWhiteSpace (fuel + 2) l = .ok (skipped l) := by
  rw [skipWhiteSpace_succ, skipped]
  by_cases h : AtEncodedSpace l
  · simp [h, skipWhiteSpace_succ, not_atEncodedSpace_step_step h]
  · simp [h]

theorem skipWhiteSpace_of_not (fuel : Nat) {l : Lexer} (h : ¬ AtEncodedSpace l) :
    skipWhiteSpace (fuel + 1) l = .ok l := by
  simp [skipWhiteSpace_succ, h]

/-- Whatever the fuel, a returning `skipWhiteSpace` returns `skipped`. -/
theorem skipWhiteSpace_ok {fuel : Nat} {l l' : Lexer}
    (h : skipWhiteSpace fuel l = .ok l') : l' = skipped l := by
  cases fuel with
  | zero => simp [skipWhiteSpace] at h
  | succ f =>
    rw [skipWhiteSpace_succ] at h
    by_cases ha : AtEncodedSpace l
    · simp only [ha, if_true] at h
      cases f with
      | zero => simp [skipWhiteSpace] at h
      | succ g =>
        rw [skipWhiteSpace_succ] at h
        simp [not_atEncodedSpace_step_step ha] at h
        simp [skipped, ha, h]
    · simp only [ha, if_false, Except.ok.injEq] at h
      subst h
      simp [skipped, ha]

theorem skipWhiteSpace_not_outOfBounds (fuel : Nat) (l : Lexer) :
    skipWhiteSpace fuel l ≠ .error .outOfBounds := by
  induction fuel generalizing l with
  | zero => simp [skipWhiteSpace]
  | succ f ih =>
    rw [skipWhiteSpace_succ]
    split
    · exact ih _
    · simp

theorem skipped_cursor (s : List Nat) (p : Nat) :
    skipped (cursor s p) = cursor s p ∨
      (AtEncodedSpace (cursor s p) ∧ skipped (cursor s p) = cursor s (p + 2)) := by
  unfold skipped
  by_cases h : AtEncodedSpace (cursor s p)
  · right; exact ⟨h, by simp [h]; rfl⟩
  · left; simp [h]

/-! ## The identifier loop -/

theorem letterRun_drop_of_letter {s : List Nat} {p : Nat}
    (h : isLetter (s[p]?.getD 0) = true) :
    p < s.length ∧ letterRun (s.drop p) = letterRun (s.drop (p + 1)) + 1 := by
  have hp : p < s.length := lt_of_getD_ne_zero (isLetter_ne h).2.2.2.2.1
  refine ⟨hp, ?_⟩
  have hget : s[p]?.getD 0 = s[p] := by simp [List.getElem?_eq_getElem hp]
  rw [hget] at h
  unfold letterRun
  rw [List.drop_eq_getElem_cons hp, List.takeWhile_cons, if_pos h, List.length_cons]

theorem letterRun_drop_of_not {s : List Nat} {p : Nat}
    (h : ¬ isLetter (s[p]?.getD 0) = true) : letterRun (s.drop p) = 0 := by
  by_cases hp : p < s.length
  · have hget : s[p]?.getD 0 = s[p] := by simp [List.getElem?_eq_getElem hp]
    rw [hget] at h
    unfold letterRun
    rw [List.drop_eq_getElem_cons hp, List.takeWhile_cons, if_neg h, List.length_nil]
  · simp [letterRun, List.drop_eq_nil_of_le (Nat.le_of_not_lt hp)]

/-- A returning identifier loop stops at the end of the letter run. -/
theorem readIdentifierLoop_ok {s : List Nat} {fuel p : Nat} {l' : Lexer}
    (h : readIdentifierLoop fuel (cursor s p) = .ok l') :
    l' = cursor s (p + letterRun (s.drop p)) := by
  induction fuel generalizing p with
  | zero => simp [readIdentifierLoop] at h
  | succ f ih =>
    rw [readIdentifierLoop_succ, step_cursor] at h
    by_cases hc : isLetter (s[p]?.getD 0) = true
    · have hc' : isLetter (cursor s p).ch = true := hc
      rw [if_pos hc'] at h
      rw [ih h, (letterRun_drop_of_letter hc).2]
      congr 1
      omega
    · have hc' : ¬ isLetter (cursor s p).ch = true := hc
      rw [if_neg hc'] at h
      rw [letterRun_drop_of_not hc]
      exact (Except.ok.inj h).symm

/-- The identifier loop returns once the fuel exceeds the length of the letter run. -/
theorem readIdentifierLoop_cursor (s : List Nat) (fuel p : Nat) :
    readIdentifierLoop (fuel + letterRun (s.drop p) + 1) (cursor s p) =
      .ok (cursor s (p + letterRun (s.drop p))) := by
  generalize hn : letterRun (s.drop p) = n
  induction n generalizing p with
  | zero =>
    rw [readIdentifierLoop_succ]
    by_cases hc : isLetter (s[p]?.getD 0) = true
    · have := (letterRun_drop_of_letter hc).2
      omega
    · have hc' : ¬ isLetter (cursor s p).ch = true := hc
      rw [if_neg hc']
      rfl
  | succ n ih =>
    rw [readIdentifierLoop_succ, step_cursor]
    by_cases hc : isLetter (s[p]?.getD 0) = true
    · have hc' : isLetter (cursor s p).ch = true := hc
      rw [if_pos hc']
      have h1 := (letterRun_drop_of_letter hc).2
      have h2 : letterRun (s.drop (p + 1)) = n := by omega
      have := ih (p + 1) h2
      rw [show fuel + (n + 1) = fuel + n + 1 from rfl, this]
      congr 2
      omega
    · have := letterRun_drop_of_not hc
      omega

theorem readIdentifierLoop_not_outOfBounds (fuel : Nat) (l : Lexer) :
    readIdentifierLoop fuel l ≠ .error .outOfBounds := by
  induction fuel generalizing l with
  | zero => simp [readIdentifierLoop]
  | succ f ih =>
    rw [readIdentifierLoop_succ]
    split
    · exact ih _
    · simp

theorem letterRun_le (s : List Nat) : letterRun s ≤ s.length := by
  unfold letterRun
  exact (List.takeWhile_sublist _).length_le

/-! ## The quoted-literal loop -/

/-- A returning quoted-literal loop stops at an offset whose successor holds an
apostrophe. -/
theorem readQuotedLoop_ok {s : List Nat} {fuel p : Nat} {l' : Lexer}
    (h : readQuotedLoop fuel (cursor s p) = .ok l') :
    ∃ q, p ≤ q ∧ l' = cursor s q ∧ s[q + 1]?.getD 0 = 39 := by
  induction fuel generalizing p with
  | zero => simp [readQuotedLoop] at h
  | succ f ih =>
    rw [readQuotedLoop_succ, step_cursor] at h
    by_cases hc : s[p + 1]?.getD 0 = 39
    · have hc' : ¬ ((cursor s p).input[(cursor s p).readPosition]?.getD 0 ≠ 39) :=
        fun hne => hne hc
      rw [if_neg hc'] at h
      exact ⟨p, Nat.le_refl p, (Except.ok.inj h).symm, hc⟩
    · have hc' : (cursor s p).input[(cursor s p).readPosition]?.getD 0 ≠ 39 := hc
      rw [if_pos hc'] at h
      obtain ⟨q, hq, hl, h39⟩ := ih h
      exact ⟨q, by omega, hl, h39⟩

theorem readQuotedLoop_not_outOfBounds (fuel : Nat) (l : Lexer) :
    readQuotedLoop fuel l ≠ .error .outOfBounds := by
  induction fuel generalizing l with
  | zero => simp [readQuotedLoop]
  | succ f ih =>
    rw [readQuotedLoop_succ]
    split
    · exact ih _
    · simp

/-- Without an apostrophe after the current offset the quoted-literal loop
exhausts any amount of fuel. -/
theorem readQuotedLoop_diverges {s : List Nat} {p : Nat}
    (h : ∀ i, p < i → s[i]?.getD 0 ≠ 39) (fuel : Nat) :
    readQuotedLoop fuel (cursor s p) = .error .outOfFuel := by
  induction fuel generalizing p with
  | zero => rfl
  | succ f ih =>
    rw [readQuotedLoop_succ, step_cursor]
    have hc : (cursor s p).input[(cursor s p).readPosition]?.getD 0 ≠ 39 :=
      h (p + 1) (Nat.lt_succ_self p)
    rw [if_pos hc]
    exact ih (fun i hi => h i (by omega))

/-! ## The two readers -/

theorem slice_eq {s : List Nat} {lo hi : Nat} (h1 : lo ≤ hi) (h2 : hi ≤ s.length) :
    slice s lo hi = .ok ((s.drop lo).take (hi - lo)) := by
  simp [slice, h1, h2]

theorem readIdentifier_ok {s : List Nat} {fuel p : Nat} {lit : List Nat} {l' : Lexer}
    (h : readIdentifier fuel (cursor s p) = .ok (lit, l')) :
    lit = (s.drop p).take (letterRun (s.drop p)) ∧
      l' = cursor s (p + letterRun (s.drop p)) := by
  unfold readIdentifier at h
  cases hl : readIdentifierLoop fuel (cursor s p) with
  | error e => simp [hl, bind, Except.bind] at h
  | ok l2 =>
    have hl2 := readIdentifierLoop_ok hl
    subst hl2
    simp only [hl, bind, Except.bind] at h
    unfold slice at h
    split_ifs at h with hb
    · simp [pure, Except.pure, cursor] at h
      exact ⟨h.1.symm, by rw [← h.2]; rfl⟩

theorem readIdentifier_cursor {s : List Nat} {p : Nat} (hp : p ≤ s.length) (fuel : Nat) :
    readIdentifier (fuel + letterRun (s.drop p) + 1) (cursor s p) =
      .ok ((s.drop p).take (letterRun (s.drop p)), cursor s (p + letterRun (s.drop p))) := by
  unfold readIdentifier
  have hle := letterRun_le (s.drop p)
  rw [List.length_drop] at hle
  have hs : slice s p (p + letterRun (s.drop p)) =
      .ok ((s.drop p).take (letterRun (s.drop p))) := by
    rw [slice_eq (by omega) (by omega)]
    congr 2
    omega
  simp only [readIdentifierLoop_cursor, bind, Except.bind, cursor_input, cursor_position, hs]
  rfl

theorem readIdentifier_not_outOfBounds {s : List Nat} {p : Nat} (hp : p ≤ s.length)
    (fuel : Nat) : readIdentifier fuel (cursor s p) ≠ .error .outOfBounds := by
  unfold readIdentifier
  cases hl : readIdentifierLoop fuel (cursor s p) with
  | error e =>
    have := readIdentifierLoop_not_outOfBounds fuel (cursor s p)
    simp only [bind, Except.bind]
    intro h
    injection h with h
    subst h
    exact this hl
  | ok l2 =>
    have hl2 := readIdentifierLoop_ok hl
    subst hl2
    have hle := letterRun_le (s.drop p)
    rw [List.length_drop] at hle
    have hs : slice s p (p + letterRun (s.drop p)) =
        .ok ((s.drop p).take (p + letterRun (s.drop p) - p)) :=
      slice_eq (by omega) (by omega)
    simp only [bind, Except.bind, cursor_input, cursor_position, hs]
    simp [pure, Except.pure]

theorem readQuoted_ok {s : List Nat} {fuel p : Nat} {lit : List Nat} {l' : Lexer}
    (h : readQuoted fuel (cursor s p) = .ok (lit, l')) :
    ∃ q, p ≤ q ∧ q + 1 < s.length ∧ s[q + 1]?.getD 0 = 39 ∧
      lit = (s.drop p).take (q - p) ∧ l' = cursor s q := by
  unfold readQuoted at h
  cases hl : readQuotedLoop fuel (cursor s p) with
  | error e => simp [hl, bind, Except.bind] at h
  | ok l2 =>
    obtain ⟨q, hq, hl2, h39⟩ := readQuotedLoop_ok hl
    subst hl2
    have hlt : q + 1 < s.length := lt_of_getD_ne_zero (by rw [h39]; decide)
    simp only [hl, bind, Except.bind] at h
    unfold slice at h
    split_ifs at h with hb
    · simp [pure, Except.pure, cursor] at h
      exact ⟨q, hq, hlt, h39, h.1.symm, by rw [← h.2]; rfl⟩

theorem readQuoted_not_outOfBounds (s : List Nat) (fuel p : Nat) :
    readQuoted fuel (cursor s p) ≠ .error .outOfBounds := by
  unfold readQuoted
  cases hl : readQuotedLoop fuel (cursor s p) with
  | error e =>
    have := readQuotedLoop_not_outOfBounds fuel (cursor s p)
    simp only [bind, Except.bind]
    intro h
    injection h with h
    subst h
    exact this hl
  | ok l2 =>
    obtain ⟨q, hq, hl2, h39⟩ := readQuotedLoop_ok hl
    subst hl2
    have hlt : q + 1 < s.length := lt_of_getD_ne_zero (by rw [h39]; decide)
    have hs : slice s p q = .ok ((s.drop p).take (q - p)) :=
      slice_eq hq (by omega)
    simp only [bind, Except.bind, cursor_input, cursor_position, hs]
    simp [pure, Except.pure]

theorem readQuoted_diverges {s : List Nat} {p : Nat}
    (h : ∀ i, p < i → s[i]?.getD 0 ≠ 39) (fuel : Nat) :
    readQuoted fuel (cursor s p) = .error .outOfFuel := by
  unfold readQuoted
  simp only [readQuotedLoop_diverges h, bind, Except.bind]

/-! ## `NextToken` on cursor states -/

theorem skipWhiteSpace_ok_cursor {s : List Nat} {fuel p : Nat} {l' : Lexer}
    (h : skipWhiteSpace fuel (cursor s p) = .ok l') :
    l' = cursor s p ∨ (AtEncodedSpace (cursor s p) ∧ l' = cursor s (p + 2)) := by
  rw [skipWhiteSpace_ok h]
  exact skipped_cursor s p

theorem dispatch_ok_cursor {s : List Nat} {fuel p : Nat} {t : Token} {l' : Lexer}
    (h : dispatch fuel (cursor s p) = .ok (t, l')) : ∃ q, p ≤ q ∧ l' = cursor s q := by
  unfold dispatch at h
  simp only [advance_eq, step_cursor] at h
  split_ifs at h with h1 h2 h3 h4 h5 h6 h7 h8
  · exact ⟨p + 1, by omega, ((Prod.mk.inj (Except.ok.inj h)).2).symm⟩
  · exact ⟨p + 1, by omega, ((Prod.mk.inj (Except.ok.inj h)).2).symm⟩
  · exact ⟨p + 1, by omega, ((Prod.mk.inj (Except.ok.inj h)).2).symm⟩
  · exact ⟨p + 1, by omega, ((Prod.mk.inj (Except.ok.inj h)).2).symm⟩
  · exact ⟨p + 1, by omega, ((Prod.mk.inj (Except.ok.inj h)).2).symm⟩
  · cases hq : readQuoted fuel (cursor s p) with
    | error e => simp [hq, bind, Except.bind] at h
    | ok r =>
      obtain ⟨lit, l2⟩ := r
      obtain ⟨q, hpq, _, _, _, hl2⟩ := readQuoted_ok hq
      subst hl2
      simp only [hq, bind, Except.bind, step_cursor] at h
      exact ⟨q + 1, by omega, ((Prod.mk.inj (Except.ok.inj h)).2).symm⟩
  · exact ⟨p + 1, by omega, ((Prod.mk.inj (Except.ok.inj h)).2).symm⟩
  · cases hq : readIdentifier fuel (cursor s p) with
    | error e => simp [hq, bind, Except.bind] at h
    | ok r =>
      obtain ⟨lit, l2⟩ := r
      obtain ⟨_, hl2⟩ := readIdentifier_ok hq
      subst hl2
      simp only [hq, bind, Except.bind] at h
      split_ifs at h
      · exact ⟨_, Nat.le_add_right _ _, ((Prod.mk.inj (Except.ok.inj h)).2).symm⟩
      · exact ⟨_, Nat.le_add_right _ _, ((Prod.mk.inj (Except.ok.inj h)).2).symm⟩
  · exact ⟨p, Nat.le_refl p, ((Prod.mk.inj (Except.ok.inj h)).2).symm⟩

theorem dispatch_not_outOfBounds (s : List Nat) (fuel p : Nat) :
    dispatch fuel (cursor s p) ≠ .error .outOfBounds := by
  unfold dispatch
  simp only [advance_eq, step_cursor]
  split_ifs with h1 h2 h3 h4 h5 h6 h7 h8
  · simp
  · simp
  · simp
  · simp
  · simp
  · cases hq : readQuoted fuel (cursor s p) with
    | error e =>
      have := readQuoted_not_outOfBounds s fuel p
      simp only [bind, Except.bind]
      intro h
      injection h with h
      subst h
      exact this hq
    | ok r => simp [bind, Except.bind]
  · simp
  · have hp : p ≤ s.length :=
      Nat.le_of_lt (lt_of_getD_ne_zero (isLetter_ne h8).2.2.2.2.1)
    cases hq : readIdentifier fuel (cursor s p) with
    | error e =>
      have := readIdentifier_not_outOfBounds hp fuel
      simp only [bind, Except.bind]
      intro h
      injection h with h
      subst h
      exact this hq
    | ok r =>
      simp only [bind, Except.bind]
      split_ifs <;> simp [pure, Except.pure]
  · simp [pure, Except.pure]

theorem NextToken_ok_cursor {s : List Nat} {fuel p : Nat} {t : Token} {l' : Lexer}
    (h : NextToken fuel (cursor s p) = .ok (t, l')) : ∃ q, p ≤ q ∧ l' = cursor s q := by
  unfold NextToken at h
  cases hs : skipWhiteSpace fuel (cursor s p) with
  | error e => simp [hs, bind, Except.bind] at h
  | ok l1 =>
    simp only [hs, bind, Except.bind] at h
    rcases skipWhiteSpace_ok_cursor hs with h1 | ⟨_, h1⟩
    · subst h1
      exact dispatch_ok_cursor h
    · subst h1
      obtain ⟨q, hq, hl⟩ := dispatch_ok_cursor h
      exact ⟨q, by omega, hl⟩

theorem NextToken_not_outOfBounds (s : List Nat) (fuel p : Nat) :
    NextToken fuel (cursor s p) ≠ .error .outOfBounds := by
  unfold NextToken
  cases hs : skipWhiteSpace fuel (cursor s p) with
  | error e =>
    have := skipWhiteSpace_not_outOfBounds fuel (cursor s p)
    simp only [bind, Except.bind]
    intro h
    injection h with h
    subst h
    exact this hs
  | ok l1 =>
    simp only [bind, Except.bind]
    rcases skipWhiteSpace_ok_cursor hs with h1 | ⟨_, h1⟩
    · subst h1
      exact dispatch_not_outOfBounds s fuel p
    · subst h1
      exact dispatch_not_outOfBounds s fuel (p + 2)

/-- Every reachable scanner state is a cursor state over the original input. -/
theorem Reachable.exists_cursor {input : List Nat} {l : Lexer} (h : Reachable input l) :
    ∃ p, l = cursor input p := by
  induction h with
  | new h0 =>
    rw [New_cursor] at h0
    exact ⟨0, (Except.ok.inj h0).symm⟩
  | next _ hn ih =>
    obtain ⟨p, hp⟩ := ih
    subst hp
    obtain ⟨q, _, hq⟩ := NextToken_ok_cursor hn
    exact ⟨q, hq⟩

theorem Reachable.of_nextTokens {input : List Nat} {fuel n : Nat} {l l' : Lexer}
    {ts : List Token} (hl : Reachable input l)
    (h : nextTokens fuel n l = .ok (ts, l')) : Reachable input l' := by
  induction n generalizing l ts with
  | zero =>
    simp [nextTokens, pure, Except.pure] at h
    rw [← h.2]
    exact hl
  | succ n ih =>
    rw [nextTokens] at h
    cases h1 : NextToken fuel l with
    | error e => simp [h1, bind, Except.bind] at h
    | ok r =>
      obtain ⟨t, l1⟩ := r
      simp only [h1, bind, Except.bind] at h
      cases h2 : nextTokens fuel n l1 with
      | error e => simp [h2] at h
      | ok r2 =>
        obtain ⟨ts2, l2⟩ := r2
        simp only [h2, pure, Except.pure, Except.ok.injEq, Prod.mk.injEq] at h
        obtain ⟨_, h3⟩ := h
        subst h3
        exact ih (Reachable.next hl h1) h2

/-! ## Keyword lookup -/

theorem lookUpIdentifier_eq_iff (w : List Nat) :
    lookUpIdentifier w = Identifier ↔ w ∉ reservedWords := by
  by_cases h : w ∈ reservedWords
  · simp only [h, not_true_eq_false, iff_false]
    simp only [reservedWords, List.mem_cons, List.mem_singleton, List.not_mem_nil, or_false] at h
    rcases h with h | h | h | h | h | h | h | h | h | h | h | h | h | h | h <;>
      subst h <;> decide
  · simp only [h, not_false_eq_true, iff_true]
    have hn : keywords.lookup w = none := by
      rw [List.lookup_eq_none_iff]
      intro p hp
      simp only [reservedWords, List.mem_cons, List.mem_singleton, List.not_mem_nil, or_false,
        not_or] at h
      simp only [keywords, List.mem_cons, List.mem_singleton, List.not_mem_nil, or_false] at hp
      rcases hp with hp | hp | hp | hp | hp | hp | hp | hp | hp | hp | hp | hp | hp | hp | hp <;>
        subst hp <;> simp only [bne_iff_ne, ne_eq] <;> intro hw <;> simp [← hw] at h
    simp [lookUpIdentifier, hn]

/-! ## Forward results for `NextToken` -/

theorem NextToken_of_not {l : Lexer} (h : ¬ AtEncodedSpace l) (fuel : Nat) :
    NextToken (fuel + 1) l = dispatch (fuel + 1) l := by
  unfold NextToken
  rw [skipWhiteSpace_of_not fuel h]
  rfl

theorem not_atEncodedSpace_of_ch {l : Lexer} (h : l.ch ≠ 37) : ¬ AtEncodedSpace l :=
  fun ha => h ha.1

theorem dispatch_zero {l : Lexer} (h : l.ch = 0) (fuel : Nat) :
    dispatch fuel l = .ok (eofToken, step l) := by
  unfold dispatch
  simp [h, advance_eq, newToken, byteToString, eofToken]

/-- At or past the end of the input a call returns the `Eof` token and moves on by one. -/
theorem NextToken_at_end {s : List Nat} {p : Nat} (hp : s.length ≤ p) (fuel : Nat) :
    NextToken (fuel + 1) (cursor s p) = .ok (eofToken, cursor s (p + 1)) := by
  have hc : (cursor s p).ch = 0 := cursor_ch_of_le hp
  rw [NextToken_of_not (not_atEncodedSpace_of_ch (by rw [hc]; decide)), dispatch_zero hc,
    step_cursor]

theorem nextTokens_at_end {s : List Nat} (fuel n : Nat) {p : Nat} (hp : s.length ≤ p) :
    nextTokens (fuel + 1) n (cursor s p) =
      .ok (List.replicate n eofToken, cursor s (p + n)) := by
  induction n generalizing p with
  | zero => rfl
  | succ n ih =>
    rw [nextTokens, NextToken_at_end hp]
    simp only [bind, Except.bind]
    rw [ih (by omega : s.length ≤ p + 1)]
    simp only [pure, Except.pure, List.replicate_succ]
    congr 3
    omega

/-- On a letter a call returns the whole letter run, classified by the keyword table,
and stops right after the run. -/
theorem NextToken_letter {s : List Nat} {p : Nat} (h : isLetter (s[p]?.getD 0) = true)
    (fuel : Nat) :
    NextToken (fuel + letterRun (s.drop p) + 1) (cursor s p) =
      .ok ({ Typ := if (s.drop p).take (letterRun (s.drop p)) ∈ reservedWords
                    then "Keyword" else Identifier,
             Literal := (s.drop p).take (letterRun (s.drop p)) },
           cursor s (p + letterRun (s.drop p))) := by
  have hne := isLetter_ne h
  have hp : p ≤ s.length := Nat.le_of_lt (lt_of_getD_ne_zero hne.2.2.2.2.1)
  rw [NextToken_of_not (not_atEncodedSpace_of_ch (by rw [cursor_ch]; exact hne.2.2.2.2.2.2.2))]
  unfold dispatch
  simp only [cursor_ch, hne.1, hne.2.1, hne.2.2.1, hne.2.2.2.1, hne.2.2.2.2.1,
    hne.2.2.2.2.2.1, hne.2.2.2.2.2.2.1, h, if_false, if_true, readIdentifier_cursor hp,
    bind, Except.bind, lookUpIdentifier_eq_iff]
  by_cases hm : (s.drop p).take (letterRun (s.drop p)) ∈ reservedWords
  · simp [hm, pure, Except.pure]
  · simp [hm, pure, Except.pure]

/-- On a byte that no `case` of the `switch` handles and that is not a letter, away
from an encoded space, a call returns the `Illegal` token and leaves the lexer as it was. -/
theorem NextToken_illegal {l : Lexer} (hs : ¬ AtEncodedSpace l)
    (h1 : l.ch ≠ 63) (h2 : l.ch ≠ 61) (h3 : l.ch ≠ 40) (h4 : l.ch ≠ 41) (h5 : l.ch ≠ 0)
    (h6 : l.ch ≠ 39) (h7 : l.ch ≠ 44) (h8 : isLetter l.ch = false) (fuel : Nat) :
    NextToken (fuel + 1) l = .ok (newToken Illegal l.ch, l) := by
  rw [NextToken_of_not hs]
  unfold dispatch
  simp [h1, h2, h3, h4, h5, h6, h7, h8, pure, Except.pure]

/-- An unterminated quoted literal: the call exhausts any amount of fuel. -/
theorem NextToken_unterminated {s : List Nat} {p : Nat} (hq : s[p]?.getD 0 = 39)
    (h : ∀ i, p < i → s[i]?.getD 0 ≠ 39) (fuel : Nat) :
    NextToken fuel (cursor s p) = .error .outOfFuel := by
  cases fuel with
  | zero => rfl
  | succ f =>
    rw [NextToken_of_not (not_atEncodedSpace_of_ch (by rw [cursor_ch, hq]; decide))]
    unfold dispatch
    simp [hq, readQuoted_diverges h, bind, Except.bind]

/-- A call that returns a token of type `Eof` found the byte 0 under the cursor. -/
theorem NextToken_eof_inv {s : List Nat} {fuel p : Nat} {t : Token} {l' : Lexer}
    (h : NextToken fuel (cursor s p) = .ok (t, l')) (ht : t.Typ = Eof) :
    ∃ q, s[q]?.getD 0 = 0 ∧ l' = cursor s (q + 1) ∧ t = eofToken := by
  unfold NextToken at h
  cases hs : skipWhiteSpace fuel (cursor s p) with
  | error e => simp [hs, bind, Except.bind] at h
  | ok l1 =>
    simp only [hs, bind, Except.bind] at h
    have hl1 : ∃ r, l1 = cursor s r := by
      rcases skipWhiteSpace_ok_cursor hs with h1 | ⟨_, h1⟩
      · exact ⟨_, h1⟩
      · exact ⟨_, h1⟩
    obtain ⟨r, hr⟩ := hl1
    subst hr
    unfold dispatch at h
    simp only [advance_eq, step_cursor] at h
    split_ifs at h with h1 h2 h3 h4 h5 h6 h7 h8
    · obtain ⟨rfl, _⟩ := Prod.mk.inj (Except.ok.inj h)
      simp [newToken, newTokenFromLiteral, ParamStart, Equals, LeftParenthesis,
        RightParenthesis, Comma, Identifier, Illegal, Eof] at ht
    · obtain ⟨rfl, _⟩ := Prod.mk.inj (Except.ok.inj h)
      simp [newToken, newTokenFromLiteral, ParamStart, Equals, LeftParenthesis,
        RightParenthesis, Comma, Identifier, Illegal, Eof] at ht
    · obtain ⟨rfl, _⟩ := Prod.mk.inj (Except.ok.inj h)
      simp [newToken, newTokenFromLiteral, ParamStart, Equals, LeftParenthesis,
        RightParenthesis, Comma, Identifier, Illegal, Eof] at ht
    · obtain ⟨rfl, _⟩ := Prod.mk.inj (Except.ok.inj h)
      simp [newToken, newTokenFromLiteral, ParamStart, Equals, LeftParenthesis,
        RightParenthesis, Comma, Identifier, Illegal, Eof] at ht
    · obtain ⟨rfl, rfl⟩ := Prod.mk.inj (Except.ok.inj h)
      exact ⟨r, h5, rfl, rfl⟩
    · cases hq : readQuoted fuel (cursor s r) with
      | error e => simp [hq, bind, Except.bind] at h
      | ok v =>
        obtain ⟨lit, l2⟩ := v
        simp only [hq, bind, Except.bind] at h
        obtain ⟨rfl, _⟩ := Prod.mk.inj (Except.ok.inj h)
        simp [newToken, newTokenFromLiteral, ParamStart, Equals, LeftParenthesis,
          RightParenthesis, Comma, Identifier, Illegal, Eof] at ht
    · obtain ⟨rfl, _⟩ := Prod.mk.inj (Except.ok.inj h)
      simp [newToken, newTokenFromLiteral, ParamStart, Equals, LeftParenthesis,
        RightParenthesis, Comma, Identifier, Illegal, Eof] at ht
    · cases hq : readIdentifier fuel (cursor s r) with
      | error e => simp [hq, bind, Except.bind] at h
      | ok v =>
        obtain ⟨lit, l2⟩ := v
        simp only [hq, bind, Except.bind] at h
        split_ifs at h
        · obtain ⟨rfl, _⟩ := Prod.mk.inj (Except.ok.inj h)
          simp [newToken, newTokenFromLiteral, ParamStart, Equals, LeftParenthesis,
            RightParenthesis, Comma, Identifier, Illegal, Eof] at ht
        · obtain ⟨rfl, _⟩ := Prod.mk.inj (Except.ok.inj h)
          simp [newToken, newTokenFromLiteral, ParamStart, Equals, LeftParenthesis,
            RightParenthesis, Comma, Identifier, Illegal, Eof] at ht
    · obtain ⟨rfl, _⟩ := Prod.mk.inj (Except.ok.inj h)
      simp [newToken, newTokenFromLiteral, ParamStart, Equals, LeftParenthesis,
        RightParenthesis, Comma, Identifier, Illegal, Eof] at ht

/-! ## The claims -/

/-- C1: on the input of `TestNextToken` the code does not produce the eleven tokens
of the claim. The first eight calls return the expected tokens, the ninth returns
`Identifier` with text `'Brian Conno` (opening apostrophe kept, last byte dropped)
and leaves the cursor on the closing apostrophe at offset 47, and the tenth call
exhausts every amount of fuel: the loop of the test never sees `Eof`. -/
theorem C1_test_input_diverges :
    tokenize 16 9 testInput =
      .ok ([ { Typ := Identifier, Literal := bytes "courses" },
             { Typ := ParamStart, Literal := bytes "?" },
             { Typ := "Keyword", Literal := bytes "filter" },
             { Typ := Equals, Literal := bytes "=" },
             { Typ := "Keyword", Literal := bytes "equals" },
             { Typ := LeftParenthesis, Literal := bytes "(" },
             { Typ := Identifier, Literal := bytes "displayName" },
             { Typ := Comma, Literal := bytes "," },
             { Typ := Identifier, Literal := bytes "'Brian Conno" } ],
           cursor testInput 47) ∧
    ∀ fuel, NextToken fuel (cursor testInput 47) = .error .outOfFuel := by
  refine ⟨rfl, fun fuel => NextToken_unterminated (by decide) ?_ fuel⟩
  intro i hi
  by_cases h48 : i = 48
  · subst h48
    decide
  · have hlen : testInput.length ≤ i := by
      have : testInput.length = 49 := by decide
      omega
    simp [List.getElem?_eq_none hlen]

/-- C2: for the quoted span `'abc'` the code returns `Identifier` with text `'ab`
(the opening apostrophe included, the last byte left out), not `abc`. -/
theorem C2_quoted_abc :
    tokenize 8 1 (bytes "'abc'") =
      .ok ([ { Typ := Identifier, Literal := bytes "'ab" } ], cursor (bytes "'abc'") 4) := by
  rfl

/-- C3: with one `%20` before the letter `a` the code returns the `Illegal` token `0`
on every call (the skip advances two bytes, not three), whereas on `a` alone it
returns `Identifier` `a` and then `Eof`: the skip is not transparent. -/
theorem C3_encoded_space_not_transparent :
    tokenize 8 2 (bytes "%20a") =
      .ok ([ { Typ := Illegal, Literal := bytes "0" }, { Typ := Illegal, Literal := bytes "0" } ],
           cursor (bytes "%20a") 2) ∧
    tokenize 8 2 (bytes "a") =
      .ok ([ { Typ := Identifier, Literal := bytes "a" }, { Typ := Eof, Literal := bytes " " } ],
           cursor (bytes "a") 2) := by
  exact ⟨rfl, rfl⟩

theorem letterRun_of_all {w : List Nat} (hw : ∀ b ∈ w, isLetter b = true) :
    letterRun w = w.length := by
  unfold letterRun
  rw [List.takeWhile_eq_self_iff.mpr hw]

/-- C4: for every non-empty input `w` of ASCII letters only, the first call returns
a token whose text is all of `w` and whose type is `Keyword` exactly when `w` is one of
the 15 reserved words and `Identifier` otherwise, and the second call returns `Eof`. -/
theorem C4_letters_only (w : List Nat) (hne : w ≠ []) (hw : ∀ b ∈ w, isLetter b = true)
    (fuel : Nat) :
    tokenize (fuel + w.length + 1) 2 w =
      .ok ([ { Typ := if w ∈ reservedWords then "Keyword" else Identifier, Literal := w },
             { Typ := Eof, Literal := [32] } ],
           cursor w (w.length + 1)) := by
  have hrun : letterRun (w.drop 0) = w.length := by
    rw [List.drop_zero]; exact letterRun_of_all hw
  have h0 : isLetter (w[0]?.getD 0) = true := by
    cases w with
    | nil => exact absurd rfl hne
    | cons a t => simpa using hw a (List.mem_cons_self a t)
  have h1 := NextToken_letter h0 fuel
  rw [hrun] at h1
  simp only [List.drop_zero, List.take_length, Nat.zero_add] at h1
  have h2 : NextToken (fuel + w.length + 1) (cursor w w.length) =
      .ok (eofToken, cursor w (w.length + 1)) := NextToken_at_end (Nat.le_refl _) _
  simp only [tokenize, New_cursor, nextTokens, bind, Except.bind, h1, h2, pure, Except.pure]
  rfl

theorem C4_letters_only_witness :
    bytes "Filter" ≠ [] ∧ (∀ b ∈ bytes "Filter", isLetter b = true) ∧
    tokenize 7 2 (bytes "Filter") =
      .ok ([ { Typ := Identifier, Literal := bytes "Filter" },
             { Typ := Eof, Literal := [32] } ],
           cursor (bytes "Filter") 7) :=
  ⟨by decide, by decide, C4_letters_only (bytes "Filter") (by decide) (by decide) 0⟩

/-- C5: for each of the one-byte inputs `?`, `=`, `(`, `)`, `,` the first call returns
the token of the matching type with that byte as text, and the second call returns `Eof`. -/
theorem C5_single_punctuation (fuel : Nat) :
    tokenize (fuel + 1) 2 (bytes "?") =
      .ok ([ { Typ := ParamStart, Literal := bytes "?" }, { Typ := Eof, Literal := [32] } ],
           cursor (bytes "?") 2) ∧
    tokenize (fuel + 1) 2 (bytes "=") =
      .ok ([ { Typ := Equals, Literal := bytes "=" }, { Typ := Eof, Literal := [32] } ],
           cursor (bytes "=") 2) ∧
    tokenize (fuel + 1) 2 (bytes "(") =
      .ok ([ { Typ := LeftParenthesis, Literal := bytes "(" }, { Typ := Eof, Literal := [32] } ],
           cursor (bytes "(") 2) ∧
    tokenize (fuel + 1) 2 (bytes ")") =
      .ok ([ { Typ := RightParenthesis, Literal := bytes ")" }, { Typ := Eof, Literal := [32] } ],
           cursor (bytes ")") 2) ∧
    tokenize (fuel + 1) 2 (bytes ",") =
      .ok ([ { Typ := Comma, Literal := bytes "," }, { Typ := Eof, Literal := [32] } ],
           cursor (bytes ",") 2) := by
  exact ⟨rfl, rfl, rfl, rfl, rfl⟩

/-- C6, counterexamples: the byte 0x80 under the cursor yields an `Illegal` token whose
text is the two bytes 0xC2 0x80, and a `%` followed by `20` yields an `Illegal` token
whose text is `0`; in neither case is the text the one byte under the cursor. -/
theorem C6_counterexample :
    NextToken 2 (cursor [128] 0) =
      .ok ({ Typ := Illegal, Literal := [194, 128] }, cursor [128] 0) ∧
    NextToken 2 (cursor (bytes "%20") 0) =
      .ok ({ Typ := Illegal, Literal := bytes "0" }, cursor (bytes "%20") 2) := by
  exact ⟨rfl, rfl⟩

/-- C6, amended: for every byte `b` that is none of `? = ( ) ,`, not an apostrophe, not
an ASCII letter and not 0, and every scanner whose current character is `b` and which
is not at a `%` followed by `20`, a call returns a token of type `Illegal` and leaves
the scanner as it was; when `b` is below 0x80 the text of the token is the one byte `b`. -/
theorem C6_illegal_byte (l : Lexer) (b : Nat) (hb : l.ch = b)
    (h1 : b ≠ 63) (h2 : b ≠ 61) (h3 : b ≠ 40) (h4 : b ≠ 41) (h5 : b ≠ 44) (h6 : b ≠ 39)
    (h7 : isLetter b = false) (h8 : b ≠ 0) (hs : ¬ AtEncodedSpace l) (fuel : Nat) :
    ∃ t, NextToken (fuel + 1) l = .ok (t, l) ∧ t.Typ = Illegal ∧
      (b < 128 → t.Literal = [b]) := by
  subst hb
  refine ⟨newToken Illegal l.ch, NextToken_illegal hs h1 h2 h3 h4 h8 h6 h5 h7 fuel, rfl, ?_⟩
  intro hlt
  simp [newToken, byteToString, hlt]

theorem C6_illegal_byte_witness :
    ∃ t, NextToken (0 + 1) (cursor (bytes "_") 0) = .ok (t, cursor (bytes "_") 0) ∧
      t.Typ = Illegal ∧ (95 < 128 → t.Literal = [95]) :=
  C6_illegal_byte (cursor (bytes "_") 0) 95 (by decide) (by decide) (by decide) (by decide)
    (by decide) (by decide) (by decide) (by decide) (by decide) (by decide) 0

/-- C7, counterexample: on the two-byte input 0x00 `a` the first call returns `Eof`
and the second call returns `Identifier` `a`. -/
theorem C7_counterexample :
    tokenize 4 2 [0, 97] =
      .ok ([ { Typ := Eof, Literal := [32] }, { Typ := Identifier, Literal := [97] } ],
           cursor [0, 97] 2) := by
  rfl

theorem getD_eq_zero_of_not_mem {s : List Nat} (h0 : 0 ∉ s) {q : Nat}
    (hq : s[q]?.getD 0 = 0) : s.length ≤ q := by
  by_contra hlt
  have hlt' : q < s.length := Nat.lt_of_not_le hlt
  apply h0
  have : s[q] = 0 := by simpa [List.getElem?_eq_getElem hlt'] using hq
  rw [← this]
  exact List.getElem_mem hlt'

theorem Reachable.of_tokenize {input : List Nat} {fuel k : Nat} {ts : List Token} {l : Lexer}
    (h : tokenize fuel k input = .ok (ts, l)) : Reachable input l := by
  unfold tokenize at h
  simp only [New_cursor, bind, Except.bind] at h
  exact Reachable.of_nextTokens (Reachable.new (New_cursor input)) h

/-- C7, amended: for every input that contains no zero byte and every `k`, if after
`k` calls on `New(input)` the next call returns a token of type `Eof`, then every
later call returns the `Eof` token as well. -/
theorem C7_eof_idempotent (input : List Nat) (h0 : 0 ∉ input) (fuel k : Nat)
    (ts : List Token) (l l' : Lexer) (t : Token)
    (hk : tokenize fuel k input = .ok (ts, l))
    (hn : NextToken fuel l = .ok (t, l')) (ht : t.Typ = Eof) (fuel' n : Nat) :
    ∃ l'', nextTokens (fuel' + 1) n l' =
      .ok (List.replicate n { Typ := Eof, Literal := [32] }, l'') := by
  obtain ⟨p, hp⟩ := (Reachable.of_tokenize hk).exists_cursor
  subst hp
  obtain ⟨q, hq, hl', _⟩ := NextToken_eof_inv hn ht
  subst hl'
  have hle : input.length ≤ q + 1 := by
    have := getD_eq_zero_of_not_mem h0 hq
    omega
  exact ⟨_, nextTokens_at_end fuel' n hle⟩

theorem C7_eof_idempotent_witness :
    ∃ l'', nextTokens (0 + 1) 3 (cursor (bytes "a") 2) =
      .ok (List.replicate 3 { Typ := Eof, Literal := [32] }, l'') :=
  C7_eof_idempotent (bytes "a") (by decide) 2 1 [ { Typ := Identifier, Literal := bytes "a" } ]
    (cursor (bytes "a") 1) (cursor (bytes "a") 2) { Typ := Eof, Literal := [32] }
    rfl rfl rfl 0 3

/-- C8: in every scanner state reachable from `New` whose position is at or past the
length of the input, a call returns exactly the token `Eof` with text one space and
leaves the scanner at a position at or past the length with current character 0; any
number of further calls return that same token. -/
theorem C8_eof_at_end (input : List Nat) (l : Lexer) (hr : Reachable input l)
    (hp : input.length ≤ l.position) (fuel : Nat) :
    (∃ l', NextToken (fuel + 1) l = .ok ({ Typ := Eof, Literal := [32] }, l') ∧
      input.length ≤ l'.position ∧ l'.ch = 0) ∧
    ∀ n, ∃ l', nextTokens (fuel + 1) n l =
      .ok (List.replicate n { Typ := Eof, Literal := [32] }, l') ∧
      input.length ≤ l'.position ∧ l'.ch = 0 := by
  obtain ⟨p, hl⟩ := hr.exists_cursor
  subst hl
  rw [cursor_position] at hp
  refine ⟨⟨cursor input (p + 1), NextToken_at_end hp fuel, ?_, ?_⟩, fun n => ?_⟩
  · rw [cursor_position]; omega
  · exact cursor_ch_of_le (by omega)
  · refine ⟨cursor input (p + n), nextTokens_at_end fuel n hp, ?_, ?_⟩
    · rw [cursor_position]; omega
    · exact cursor_ch_of_le (by omega)

theorem C8_eof_at_end_witness :
    (∃ l', NextToken (0 + 1) (cursor [] 0) = .ok ({ Typ := Eof, Literal := [32] }, l') ∧
      ([] : List Nat).length ≤ l'.position ∧ l'.ch = 0) ∧
    ∀ n, ∃ l', nextTokens (0 + 1) n (cursor [] 0) =
      .ok (List.replicate n { Typ := Eof, Literal := [32] }, l') ∧
      ([] : List Nat).length ≤ l'.position ∧ l'.ch = 0 :=
  C8_eof_at_end [] (cursor [] 0) (Reachable.new (New_cursor [])) (Nat.le_refl 0) 0

/-- C9: from every scanner state reachable from `New`, with any amount of fuel, a call
never ends in an out-of-range index or slice; `New` itself returns as well. -/
theorem C9_no_out_of_bounds (input : List Nat) (l : Lexer) (hr : Reachable input l)
    (fuel : Nat) :
    (∃ l0, New input = .ok l0) ∧ NextToken fuel l ≠ .error .outOfBounds := by
  obtain ⟨p, hl⟩ := hr.exists_cursor
  subst hl
  exact ⟨⟨_, New_cursor input⟩, NextToken_not_outOfBounds input fuel p⟩

theorem C9_no_out_of_bounds_witness :
    (∃ l0, New (bytes "'a'") = .ok l0) ∧
      NextToken 5 (cursor (bytes "'a'") 0) ≠ .error .outOfBounds :=
  C9_no_out_of_bounds (bytes "'a'") (cursor (bytes "'a'") 0)
    (Reachable.new (New_cursor _)) 5

/-- C10: in the state returned by `New(input)` and in every state reached from it by
returning `NextToken` calls, `readPosition = position + 1`, the input field is the
original input, and `ch` is the byte at `position` when `position < len(input)` and 0
when `position >= len(input)`. -/
theorem C10_state_invariant (input : List Nat) (l : Lexer) (hr : Reachable input l) :
    l.readPosition = l.position + 1 ∧ l.input = input ∧
    (∀ h : l.position < input.length, l.ch = input.get ⟨l.position, h⟩) ∧
    (input.length ≤ l.position → l.ch = 0) := by
  obtain ⟨p, hl⟩ := hr.exists_cursor
  subst hl
  refine ⟨rfl, rfl, ?_, fun h => cursor_ch_of_le h⟩
  intro h
  simp only [cursor_position] at h
  simp [cursor, List.getElem?_eq_getElem h]

theorem C10_state_invariant_witness :
    (cursor (bytes "a?") 1).readPosition = (cursor (bytes "a?") 1).position + 1 ∧
    (cursor (bytes "a?") 1).input = bytes "a?" ∧
    (∀ h : (cursor (bytes "a?") 1).position < (bytes "a?").length,
      (cursor (bytes "a?") 1).ch = (bytes "a?").get ⟨(cursor (bytes "a?") 1).position, h⟩) ∧
    ((bytes "a?").length ≤ (cursor (bytes "a?") 1).position → (cursor (bytes "a?") 1).ch = 0) :=
  C10_state_invariant (bytes "a?") (cursor (bytes "a?") 1)
    (Reachable.next (Reachable.new (New_cursor _))
      (show NextToken 3 (cursor (bytes "a?") 0) =
        .ok ({ Typ := Identifier, Literal := bytes "a" }, cursor (bytes "a?") 1) from rfl))

/-! ## Well-formed states and progress -/

theorem WellFormed.eq_cursor {l : Lexer} (h : WellFormed l) :
    l = cursor l.input l.position := by
  obtain ⟨h1, h2⟩ := h
  cases l
  simp only [cursor] at *
  subst h1 h2
  rfl

theorem wellFormed_cursor (s : List Nat) (p : Nat) : WellFormed (cursor s p) := ⟨rfl, rfl⟩

theorem Reachable.wellFormed {input : List Nat} {l : Lexer} (h : Reachable input l) :
    WellFormed l := by
  obtain ⟨p, hp⟩ := h.exists_cursor
  subst hp
  exact wellFormed_cursor input p

/-- A returning `dispatch` whose token is not `Illegal` moves the cursor forward. -/
theorem dispatch_progress {s : List Nat} {fuel p : Nat} {t : Token} {l' : Lexer}
    (h : dispatch fuel (cursor s p) = .ok (t, l')) (ht : t.Typ ≠ Illegal) :
    ∃ q, p < q ∧ l' = cursor s q := by
  unfold dispatch at h
  simp only [advance_eq, step_cursor] at h
  split_ifs at h with h1 h2 h3 h4 h5 h6 h7 h8
  · exact ⟨p + 1, by omega, ((Prod.mk.inj (Except.ok.inj h)).2).symm⟩
  · exact ⟨p + 1, by omega, ((Prod.mk.inj (Except.ok.inj h)).2).symm⟩
  · exact ⟨p + 1, by omega, ((Prod.mk.inj (Except.ok.inj h)).2).symm⟩
  · exact ⟨p + 1, by omega, ((Prod.mk.inj (Except.ok.inj h)).2).symm⟩
  · exact ⟨p + 1, by omega, ((Prod.mk.inj (Except.ok.inj h)).2).symm⟩
  · cases hq : readQuoted fuel (cursor s p) with
    | error e => simp [hq, bind, Except.bind] at h
    | ok r =>
      obtain ⟨lit, l2⟩ := r
      obtain ⟨q, hpq, _, _, _, hl2⟩ := readQuoted_ok hq
      subst hl2
      simp only [hq, bind, Except.bind, step_cursor] at h
      exact ⟨q + 1, by omega, ((Prod.mk.inj (Except.ok.inj h)).2).symm⟩
  · exact ⟨p + 1, by omega, ((Prod.mk.inj (Except.ok.inj h)).2).symm⟩
  · cases hq : readIdentifier fuel (cursor s p) with
    | error e => simp [hq, bind, Except.bind] at h
    | ok r =>
      obtain ⟨lit, l2⟩ := r
      obtain ⟨_, hl2⟩ := readIdentifier_ok hq
      subst hl2
      have hrun := (letterRun_drop_of_letter (s := s) (p := p) h8).2
      simp only [hq, bind, Except.bind] at h
      split_ifs at h
      · exact ⟨_, by omega, ((Prod.mk.inj (Except.ok.inj h)).2).symm⟩
      · exact ⟨_, by omega, ((Prod.mk.inj (Except.ok.inj h)).2).symm⟩
  · obtain ⟨rfl, _⟩ := Prod.mk.inj (Except.ok.inj h)
    exact absurd rfl ht

theorem NextToken_progress {s : List Nat} {fuel p : Nat} {t : Token} {l' : Lexer}
    (h : NextToken fuel (cursor s p) = .ok (t, l')) (ht : t.Typ ≠ Illegal) :
    ∃ q, p < q ∧ l' = cursor s q := by
  unfold NextToken at h
  cases hs : skipWhiteSpace fuel (cursor s p) with
  | error e => simp [hs, bind, Except.bind] at h
  | ok l1 =>
    simp only [hs, bind, Except.bind] at h
    rcases skipWhiteSpace_ok_cursor hs with h1 | ⟨_, h1⟩
    · subst h1
      exact dispatch_progress h ht
    · subst h1
      obtain ⟨q, hq, hl⟩ := dispatch_progress h ht
      exact ⟨q, by omega, hl⟩

/-- C11, counterexample: the state `New("_")` is returned unchanged by a call, which
yields the `Illegal` token `_`; the position has not increased. -/
theorem C11_counterexample :
    New (bytes "_") = .ok (cursor (bytes "_") 0) ∧
    NextToken 1 (cursor (bytes "_") 0) =
      .ok ({ Typ := Illegal, Literal := bytes "_" }, cursor (bytes "_") 0) := by
  exact ⟨rfl, rfl⟩

/-- C11, amended: for every scanner state reachable from `New`, a returning call never
moves the position backwards, and whenever the returned token is not of type `Illegal`
the position has strictly increased, so the cursor state differs from the one before. -/
theorem C11_cursor_progress (input : List Nat) (l l' : Lexer) (t : Token) (fuel : Nat)
    (hr : Reachable input l) (hn : NextToken fuel l = .ok (t, l')) :
    l.position ≤ l'.position ∧
      (t.Typ ≠ Illegal → l.position < l'.position ∧
        (l'.position, l'.readPosition, l'.ch) ≠ (l.position, l.readPosition, l.ch)) := by
  obtain ⟨p, hp⟩ := hr.exists_cursor
  subst hp
  obtain ⟨q, hq, hl⟩ := NextToken_ok_cursor hn
  subst hl
  refine ⟨hq, fun ht => ?_⟩
  obtain ⟨q', hq', hl'⟩ := NextToken_progress hn ht
  have hqq : q = q' := by
    have := congrArg Lexer.position hl'
    simpa using this
  subst hqq
  refine ⟨hq', ?_⟩
  intro heq
  have := congrArg Prod.fst heq
  simp only [cursor_position] at this
  omega

theorem C11_cursor_progress_witness :
    (cursor (bytes "a?") 0).position ≤ (cursor (bytes "a?") 1).position ∧
      ((Identifier : TokenType) ≠ Illegal →
        (cursor (bytes "a?") 0).position < (cursor (bytes "a?") 1).position ∧
        ((cursor (bytes "a?") 1).position, (cursor (bytes "a?") 1).readPosition,
            (cursor (bytes "a?") 1).ch) ≠
          ((cursor (bytes "a?") 0).position, (cursor (bytes "a?") 0).readPosition,
            (cursor (bytes "a?") 0).ch)) :=
  C11_cursor_progress (bytes "a?") (cursor (bytes "a?") 0) (cursor (bytes "a?") 1)
    { Typ := Identifier, Literal := bytes "a" } 3 (Reachable.new (New_cursor _)) rfl

/-! ## Exact result of the quoted-literal reader -/

theorem getD_ne_of_ne_some {s : List Nat} {i c : Nat} (hc : c ≠ 0) (h : s[i]? ≠ some c) :
    s[i]?.getD 0 ≠ c := by
  cases hi : s[i]? with
  | none => simpa using hc.symm
  | some b =>
    rw [hi] at h
    simpa using fun hb => h (by rw [hb])

theorem getD_eq_of_eq_some {s : List Nat} {i c : Nat} (h : s[i]? = some c) :
    s[i]?.getD 0 = c := by
  rw [h]; rfl

/-- The quoted-literal loop stops one byte before the first apostrophe that follows
the current offset. -/
theorem readQuotedLoop_cursor {s : List Nat} (fuel : Nat) :
    ∀ (k p : Nat), s[p + 1 + k]?.getD 0 = 39 →
      (∀ i, p < i → i < p + 1 + k → s[i]?.getD 0 ≠ 39) →
      readQuotedLoop (fuel + k + 1) (cursor s p) = .ok (cursor s (p + k)) := by
  intro k
  induction k with
  | zero =>
    intro p hq _
    rw [readQuotedLoop_succ]
    have hc : ¬ ((cursor s p).input[(cursor s p).readPosition]?.getD 0 ≠ 39) :=
      fun hne => hne hq
    rw [if_neg hc]
    rfl
  | succ k ih =>
    intro p hq hmin
    rw [readQuotedLoop_succ, step_cursor]
    have hc : (cursor s p).input[(cursor s p).readPosition]?.getD 0 ≠ 39 :=
      hmin (p + 1) (by omega) (by omega)
    rw [if_pos hc]
    have hq' : s[p + 1 + 1 + k]?.getD 0 = 39 := by
      rw [show p + 1 + 1 + k = p + 1 + (k + 1) by omega]; exact hq
    have := ih (p + 1) hq' (fun i h1 h2 => hmin i (by omega) (by omega))
    rw [show p + (k + 1) = p + 1 + k by omega]
    exact this

theorem readQuoted_cursor {s : List Nat} (fuel k p : Nat) (hq : s[p + 1 + k]?.getD 0 = 39)
    (hmin : ∀ i, p < i → i < p + 1 + k → s[i]?.getD 0 ≠ 39) :
    readQuoted (fuel + k + 1) (cursor s p) = .ok ((s.drop p).take k, cursor s (p + k)) := by
  have hlt : p + 1 + k < s.length := lt_of_getD_ne_zero (by rw [hq]; decide)
  have hs : slice s p (p + k) = .ok ((s.drop p).take k) := by
    rw [slice_eq (by omega) (by omega)]
    congr 2
    omega
  unfold readQuoted
  simp only [readQuotedLoop_cursor fuel k p hq hmin, bind, Except.bind, cursor_input,
    cursor_position, hs]
  rfl

/-- On an apostrophe a call returns `Identifier` with the bytes from the current offset
up to, not including, the byte before the next apostrophe, and stops on that apostrophe. -/
theorem NextToken_quoted {s : List Nat} (fuel k p : Nat) (h0 : s[p]?.getD 0 = 39)
    (hq : s[p + 1 + k]?.getD 0 = 39)
    (hmin : ∀ i, p < i → i < p + 1 + k → s[i]?.getD 0 ≠ 39) :
    NextToken (fuel + k + 1) (cursor s p) =
      .ok ({ Typ := Identifier, Literal := (s.drop p).take k }, cursor s (p + 1 + k)) := by
  rw [NextToken_of_not (not_atEncodedSpace_of_ch (by rw [cursor_ch, h0]; decide))]
  unfold dispatch
  simp only [cursor_ch, h0, readQuoted_cursor fuel k p hq hmin, bind, Except.bind,
    advance_eq, step_cursor, newTokenFromLiteral]
  simp only [show (39 : Nat) ≠ 63 by decide, show (39 : Nat) ≠ 61 by decide,
    show (39 : Nat) ≠ 40 by decide, show (39 : Nat) ≠ 41 by decide,
    show (39 : Nat) ≠ 0 by decide, if_false, if_true]
  congr 3
  omega

theorem readQuotedLoop_diverges_of {l : Lexer}
    (h : ∀ i, l.readPosition ≤ i → l.input[i]?.getD 0 ≠ 39) (fuel : Nat) :
    readQuotedLoop fuel l = .error .outOfFuel := by
  cases fuel with
  | zero => rfl
  | succ f =>
    rw [readQuotedLoop_succ, if_pos (h _ (Nat.le_refl _)), step_eq_cursor]
    exact readQuotedLoop_diverges (fun i hi => h i (Nat.le_of_lt hi)) f

theorem readChars_cursor (s : List Nat) (n p : Nat) :
    readChars n (cursor s p) = .ok (cursor s (p + n)) := by
  induction n generalizing p with
  | zero => rfl
  | succ n ih =>
    rw [readChars]
    simp only [readChar_eq, step_cursor, bind, Except.bind]
    rw [ih (p + 1)]
    congr 2
    omega

/-- C12, counterexample: on `'Brian O''Connor'` the first call returns `Identifier`
with text `'Brian ` and stops on the first internal apostrophe at offset 8; the text
does not extend past the doubled apostrophe. -/
theorem C12_counterexample :
    tokenize 16 1 (bytes "'Brian O''Connor'") =
      .ok ([ { Typ := Identifier, Literal := bytes "'Brian " } ],
           cursor (bytes "'Brian O''Connor'") 8) := by
  rfl

/-- C12, amended: a doubled apostrophe is not an escape. For every well-formed scanner
state on an apostrophe at offset `p`, with `q` the first later offset holding an
apostrophe (doubled or not), a call returns one `Identifier` token whose text lies
within the bytes before `q`, and the cursor does not go beyond `q + 1`. -/
theorem C12_first_apostrophe_terminates (l : Lexer) (q fuel : Nat) (hw : WellFormed l)
    (hch : l.ch = 39) (hpq : l.position < q) (hq : l.input[q]? = some 39)
    (hmin : ∀ i, l.position < i → i < q → l.input[i]? ≠ some 39) :
    ∃ t l', NextToken (fuel + (q - l.position)) l = .ok (t, l') ∧ t.Typ = Identifier ∧
      t.Literal <:+: l.input.take q ∧ l'.position ≤ q + 1 := by
  obtain ⟨k, hk⟩ : ∃ k, q = l.position + 1 + k := ⟨q - l.position - 1, by omega⟩
  have hl := hw.eq_cursor
  generalize l.input = s at *
  generalize l.position = p at *
  subst hl hk
  have h0 : s[p]?.getD 0 = 39 := hch
  have h := NextToken_quoted fuel k p h0 (getD_eq_of_eq_some hq)
    (fun i h1 h2 => getD_ne_of_ne_some (by decide) (hmin i h1 h2))
  refine ⟨{ Typ := Identifier, Literal := (s.drop p).take k }, cursor s (p + 1 + k),
    ?_, rfl, ?_, Nat.le_succ _⟩
  · rw [show fuel + (p + 1 + k - p) = fuel + k + 1 by omega]
    exact h
  · show (s.drop p).take k <:+: s.take (p + 1 + k)
    rw [List.take_drop]
    exact (List.drop_suffix p _).isInfix.trans
      (List.take_prefix_take_left s (by omega)).isInfix

theorem C12_first_apostrophe_terminates_witness :
    ∃ t l', NextToken (0 + (8 - (cursor (bytes "'Brian O''Connor'") 0).position))
        (cursor (bytes "'Brian O''Connor'") 0) = .ok (t, l') ∧ t.Typ = Identifier ∧
      t.Literal <:+: (cursor (bytes "'Brian O''Connor'") 0).input.take 8 ∧
      l'.position ≤ 8 + 1 :=
  C12_first_apostrophe_terminates (cursor (bytes "'Brian O''Connor'") 0) 8 0
    (wellFormed_cursor _ 0) (by decide) (by decide) (by decide) (by
      intro i h1 h2
      have : i = 1 ∨ i = 2 ∨ i = 3 ∨ i = 4 ∨ i = 5 ∨ i = 6 ∨ i = 7 := by
        simp only [cursor_position] at h1
        omega
      rcases this with h | h | h | h | h | h | h <;> subst h <;> decide)

/-- C13: on `'abc')` the call that returns the quoted-literal token leaves the cursor
on the closing apostrophe (offset 4, that is `len(s) + 1`), not one past it, and the
following call exhausts every amount of fuel instead of returning `RightParenthesis`. -/
theorem C13_closing_apostrophe_not_consumed :
    tokenize 8 1 (bytes "'abc')") =
      .ok ([ { Typ := Identifier, Literal := bytes "'ab" } ], cursor (bytes "'abc')") 4) ∧
    (cursor (bytes "'abc')") 4).ch = 39 ∧
    ∀ fuel, NextToken fuel (cursor (bytes "'abc')") 4) = .error .outOfFuel := by
  refine ⟨rfl, rfl, fun fuel => NextToken_unterminated (by decide) ?_ fuel⟩
  intro i hi
  by_cases h5 : i = 5
  · subst h5
    decide
  · have hlen : (bytes "'abc')").length ≤ i := by
      have : (bytes "'abc')").length = 6 := by decide
      omega
    simp [List.getElem?_eq_none hlen]

/-- C14: for every well-formed scanner state whose current character is an apostrophe
at offset `p`, with no apostrophe at any offset beyond `p`, the guard
of the `readQuoted` loop (`peekChar()` is not an apostrophe) holds after any number of `readChar` steps, and a
call exhausts every amount of fuel: it never returns a token. -/
theorem C14_unterminated_quote (l : Lexer) (hw : WellFormed l) (hch : l.ch = 39)
    (hno : ∀ q, l.position < q → l.input[q]? ≠ some 39) :
    (∀ n, ∃ l' c, readChars n l = .ok l' ∧ peekChar l' = .ok c ∧ c ≠ 39) ∧
    (∀ fuel, readQuoted fuel l = .error .outOfFuel) ∧
    ∀ fuel, NextToken fuel l = .error .outOfFuel := by
  have hl := hw.eq_cursor
  generalize l.input = s at *
  generalize l.position = p at *
  subst hl
  have hno' : ∀ i, p < i → s[i]?.getD 0 ≠ 39 :=
    fun i hi => getD_ne_of_ne_some (by decide) (hno i hi)
  refine ⟨fun n => ?_, fun fuel => readQuoted_diverges hno' fuel,
    fun fuel => NextToken_unterminated hch hno' fuel⟩
  refine ⟨cursor s (p + n), s[p + n + 1]?.getD 0, readChars_cursor s n p, ?_,
    hno' _ (by omega)⟩
  rw [peekChar_eq]
  rfl

theorem C14_unterminated_quote_witness :
    (∀ n, ∃ l' c, readChars n (cursor (bytes "'ab") 0) = .ok l' ∧
      peekChar l' = .ok c ∧ c ≠ 39) ∧
    (∀ fuel, readQuoted fuel (cursor (bytes "'ab") 0) = .error .outOfFuel) ∧
    ∀ fuel, NextToken fuel (cursor (bytes "'ab") 0) = .error .outOfFuel :=
  C14_unterminated_quote (cursor (bytes "'ab") 0) (wellFormed_cursor _ 0) (by decide) (by
    intro q hq
    simp only [cursor_position] at hq
    by_cases h1 : q = 1
    · subst h1; decide
    · by_cases h2 : q = 2
      · subst h2; decide
      · have hlen : (bytes "'ab").length ≤ q := by
          have : (bytes "'ab").length = 3 := by decide
          omega
        simp [List.getElem?_eq_none hlen])

/-- C17: for every well-formed scanner state whose current character is an apostrophe
at offset `p`, with `q` the smallest offset beyond `p` holding an apostrophe, a call
returns `Identifier` with text `input[p:q-1]`, of length `q - p - 1`, empty when
`q = p + 1` and otherwise starting with the opening apostrophe, and leaves the cursor
at offset `q` on the apostrophe. -/
theorem C17_quoted_exact (l : Lexer) (q fuel : Nat) (hw : WellFormed l)
    (hch : l.ch = 39) (hpq : l.position < q) (hq : l.input[q]? = some 39)
    (hmin : ∀ i, l.position < i → i < q → l.input[i]? ≠ some 39) :
    ∃ lit, slice l.input l.position (q - 1) = .ok lit ∧
      NextToken (fuel + (q - l.position)) l =
        .ok ({ Typ := Identifier, Literal := lit }, cursor l.input q) ∧
      lit.length = q - l.position - 1 ∧
      (q = l.position + 1 → lit = []) ∧
      (q ≠ l.position + 1 → lit.head? = some 39) ∧
      (cursor l.input q).ch = 39 := by
  obtain ⟨k, hk⟩ : ∃ k, q = l.position + 1 + k := ⟨q - l.position - 1, by omega⟩
  have hl := hw.eq_cursor
  generalize l.input = s at *
  generalize l.position = p at *
  subst hl hk
  have h0 : s[p]?.getD 0 = 39 := hch
  have hq' := getD_eq_of_eq_some hq
  have hlt : p + 1 + k < s.length := lt_of_getD_ne_zero (by rw [hq']; decide)
  have h := NextToken_quoted fuel k p h0 hq'
    (fun i h1 h2 => getD_ne_of_ne_some (by decide) (hmin i h1 h2))
  refine ⟨(s.drop p).take k, ?_, ?_, ?_, ?_, ?_, hq'⟩
  · rw [slice_eq (by omega) (by omega)]
    congr 2
    omega
  · rw [show fuel + (p + 1 + k - p) = fuel + k + 1 by omega]
    exact h
  · rw [List.length_take, List.length_drop]
    omega
  · intro hk0
    have : k = 0 := by omega
    subst this
    rfl
  · intro hk0
    obtain ⟨j, rfl⟩ : ∃ j, k = j + 1 := ⟨k - 1, by omega⟩
    have hp : p < s.length := by omega
    rw [List.drop_eq_getElem_cons hp, List.take_succ_cons, List.head?_cons]
    have : s[p]?.getD 0 = s[p] := by simp [List.getElem?_eq_getElem hp]
    rw [← this, h0]

theorem C17_quoted_exact_witness :
    ∃ lit, slice (cursor (bytes "'abc')") 0).input (cursor (bytes "'abc')") 0).position
        (4 - 1) = .ok lit ∧
      NextToken (0 + (4 - (cursor (bytes "'abc')") 0).position)) (cursor (bytes "'abc')") 0) =
        .ok ({ Typ := Identifier, Literal := lit },
          cursor (cursor (bytes "'abc')") 0).input 4) ∧
      lit.length = 4 - (cursor (bytes "'abc')") 0).position - 1 ∧
      (4 = (cursor (bytes "'abc')") 0).position + 1 → lit = []) ∧
      (4 ≠ (cursor (bytes "'abc')") 0).position + 1 → lit.head? = some 39) ∧
      (cursor (cursor (bytes "'abc')") 0).input 4).ch = 39 :=
  C17_quoted_exact (cursor (bytes "'abc')") 0) 4 0 (wellFormed_cursor _ 0) (by decide)
    (by decide) (by decide) (by
      intro i h1 h2
      have : i = 1 ∨ i = 2 ∨ i = 3 := by
        simp only [cursor_position] at h1
        omega
      rcases this with h | h | h <;> subst h <;> decide)

/-! ## Illegal bytes, letter runs and the encoded space -/

theorem nextTokens_succ_of_ok {fuel n : Nat} {l l1 : Lexer} {t : Token}
    (h : NextToken fuel l = .ok (t, l1)) :
    nextTokens fuel (n + 1) l =
      (nextTokens fuel n l1).map (fun r => (t :: r.1, r.2)) := by
  rw [nextTokens]
  simp only [h, bind, Except.bind]
  cases nextTokens fuel n l1 <;> rfl

theorem nextTokens_fixed {fuel : Nat} {l : Lexer} {t : Token}
    (h : NextToken fuel l = .ok (t, l)) (n : Nat) :
    nextTokens fuel n l = .ok (List.replicate n t, l) := by
  induction n with
  | zero => rfl
  | succ n ih =>
    rw [nextTokens_succ_of_ok h, ih]
    rfl

/-- C15: for every scanner state whose current character is none of `? = ( ) ,`, not an
apostrophe, not a letter and not 0, and which is not at a `%` followed by `20`, a call
returns the `Illegal` token and leaves the whole state, so position, readPosition and
ch, unchanged; any number of calls return that same token, and no call, with whatever
fuel, returns a token of type `Eof`. -/
theorem C15_illegal_no_advance (l : Lexer)
    (h1 : l.ch ≠ 63) (h2 : l.ch ≠ 61) (h3 : l.ch ≠ 40) (h4 : l.ch ≠ 41) (h5 : l.ch ≠ 44)
    (h6 : l.ch ≠ 39) (h7 : isLetter l.ch = false) (h8 : l.ch ≠ 0)
    (hs : ¬ AtEncodedSpace l) (fuel : Nat) :
    NextToken (fuel + 1) l = .ok ({ Typ := Illegal, Literal := byteToString l.ch }, l) ∧
    (∀ n, nextTokens (fuel + 1) n l =
      .ok (List.replicate n { Typ := Illegal, Literal := byteToString l.ch }, l)) ∧
    ∀ fuel' n ts l', nextTokens fuel' n l = .ok (ts, l') → ∀ t ∈ ts, t.Typ ≠ Eof := by
  have hn : ∀ f, NextToken (f + 1) l =
      .ok ({ Typ := Illegal, Literal := byteToString l.ch }, l) :=
    fun f => NextToken_illegal hs h1 h2 h3 h4 h8 h6 h5 h7 f
  refine ⟨hn fuel, nextTokens_fixed (hn fuel), ?_⟩
  intro fuel' n ts l' hts t ht
  cases fuel' with
  | zero =>
    cases n with
    | zero =>
      simp only [nextTokens, pure, Except.pure, Except.ok.injEq, Prod.mk.injEq] at hts
      rw [← hts.1] at ht
      cases ht
    | succ m =>
      have : NextToken 0 l = .error .outOfFuel := rfl
      rw [nextTokens] at hts
      simp [this, bind, Except.bind] at hts
  | succ f =>
    rw [nextTokens_fixed (hn f)] at hts
    simp only [Except.ok.injEq, Prod.mk.injEq] at hts
    rw [← hts.1] at ht
    rw [List.eq_of_mem_replicate ht]
    show Illegal ≠ Eof
    decide

theorem C15_illegal_no_advance_witness :
    NextToken (0 + 1) (cursor (bytes "a_b") 1) =
      .ok ({ Typ := Illegal, Literal := byteToString (cursor (bytes "a_b") 1).ch },
        cursor (bytes "a_b") 1) ∧
    (∀ n, nextTokens (0 + 1) n (cursor (bytes "a_b") 1) =
      .ok (List.replicate n
        { Typ := Illegal, Literal := byteToString (cursor (bytes "a_b") 1).ch },
        cursor (bytes "a_b") 1)) ∧
    ∀ fuel' n ts l', nextTokens fuel' n (cursor (bytes "a_b") 1) = .ok (ts, l') →
      ∀ t ∈ ts, t.Typ ≠ Eof :=
  C15_illegal_no_advance (cursor (bytes "a_b") 1) (by decide) (by decide) (by decide)
    (by decide) (by decide) (by decide) (by decide) (by decide) (by decide) 0

theorem letterRun_drop_eq {s : List Nat} :
    ∀ (d p e : Nat), p + d = e →
      (∀ i, p ≤ i → i < e → isLetter (s[i]?.getD 0) = true) →
      isLetter (s[e]?.getD 0) = false → letterRun (s.drop p) = d := by
  intro d
  induction d with
  | zero =>
    intro p e hpe _ hend
    have : p = e := by omega
    subst this
    exact letterRun_drop_of_not (by rw [hend]; decide)
  | succ d ih =>
    intro p e hpe hrun hend
    have hp := hrun p (Nat.le_refl p) (by omega)
    rw [(letterRun_drop_of_letter hp).2,
      ih (p + 1) e (by omega) (fun i h1 h2 => hrun i (by omega) h2) hend]

/-- C16: for every well-formed scanner state whose current character is an ASCII letter
at offset `p`, with `e` the smallest offset at or after `p` that is the length of the
input or holds a non-letter byte, a call returns the text `input[p:e]`, of type
`Keyword` if that text is one of the 15 reserved words and `Identifier` otherwise, and
leaves the cursor at `e`, the byte at `e` not consumed. -/
theorem C16_identifier_maximal_munch (l : Lexer) (e fuel : Nat) (hw : WellFormed l)
    (hch : isLetter l.ch = true) (hpe : l.position ≤ e)
    (hrun : ∀ i, l.position ≤ i → i < e → ∃ b, l.input[i]? = some b ∧ isLetter b = true)
    (hend : e = l.input.length ∨ ∃ b, l.input[e]? = some b ∧ isLetter b = false) :
    ∃ lit, slice l.input l.position e = .ok lit ∧
      NextToken (fuel + (e - l.position) + 1) l =
        .ok ({ Typ := if lit ∈ reservedWords then "Keyword" else Identifier,
               Literal := lit }, cursor l.input e) := by
  have hl := hw.eq_cursor
  generalize l.input = s at *
  generalize l.position = p at *
  subst hl
  have h0 : isLetter (s[p]?.getD 0) = true := hch
  have hrun' : ∀ i, p ≤ i → i < e → isLetter (s[i]?.getD 0) = true := by
    intro i h1 h2
    obtain ⟨b, hb, hlb⟩ := hrun i h1 h2
    rw [hb]; exact hlb
  have hend' : isLetter (s[e]?.getD 0) = false := by
    rcases hend with h | ⟨b, hb, hlb⟩
    · rw [h, List.getElem?_eq_none (Nat.le_refl _)]; rfl
    · rw [hb]; exact hlb
  have hle : e ≤ s.length := by
    by_contra hgt
    have := hrun' s.length (by
      have := lt_of_getD_ne_zero (isLetter_ne h0).2.2.2.2.1
      omega) (by omega)
    rw [List.getElem?_eq_none (Nat.le_refl _)] at this
    exact absurd this (by decide)
  have hr : letterRun (s.drop p) = e - p :=
    letterRun_drop_eq (e - p) p e (by omega) hrun' hend'
  have h := NextToken_letter h0 fuel
  rw [hr, show p + (e - p) = e by omega] at h
  refine ⟨(s.drop p).take (e - p), slice_eq hpe hle, h⟩

theorem C16_identifier_maximal_munch_witness :
    ∃ lit, slice (cursor (bytes "ab1c") 0).input (cursor (bytes "ab1c") 0).position 2 =
        .ok lit ∧
      NextToken (0 + (2 - (cursor (bytes "ab1c") 0).position) + 1) (cursor (bytes "ab1c") 0) =
        .ok ({ Typ := if lit ∈ reservedWords then "Keyword" else Identifier,
               Literal := lit }, cursor (cursor (bytes "ab1c") 0).input 2) :=
  C16_identifier_maximal_munch (cursor (bytes "ab1c") 0) 2 0 (wellFormed_cursor _ 0)
    (by decide) (by decide)
    (by
      intro i _ h2
      have : i = 0 ∨ i = 1 := by omega
      rcases this with h | h <;> subst h
      · exact ⟨97, rfl, rfl⟩
      · exact ⟨98, rfl, rfl⟩)
    (Or.inr ⟨49, rfl, rfl⟩)

theorem atEncodedSpace_cursor_iff (s : List Nat) (p : Nat) :
    AtEncodedSpace (cursor s p) ↔
      (cursor s p).ch = 37 ∧ s[p + 1]? = some 50 ∧ s[p + 2]? = some 48 := by
  unfold AtEncodedSpace
  simp only [cursor_input, cursor_readPosition]
  constructor
  · rintro ⟨h1, h2, h3⟩
    refine ⟨h1, ?_, ?_⟩
    · cases h : s[p + 1]? with
      | none => rw [h] at h2; exact absurd h2 (by decide)
      | some b => rw [h] at h2; exact congrArg some h2
    · cases h : s[p + 1 + 1]? with
      | none => rw [h] at h3; exact absurd h3 (by decide)
      | some b => rw [h] at h3; exact congrArg some h3
  · rintro ⟨h1, h2, h3⟩
    exact ⟨h1, getD_eq_of_eq_some h2, getD_eq_of_eq_some h3⟩

theorem dispatch_zero_digit {s : List Nat} {p : Nat} (h : s[p]?.getD 0 = 48) (fuel : Nat) :
    dispatch fuel (cursor s p) = .ok ({ Typ := Illegal, Literal := [48] }, cursor s p) := by
  unfold dispatch
  simp [h, isLetter, newToken, byteToString, pure, Except.pure]

/-- C18: for every well-formed scanner state whose current character is `%` at offset
`p` with `2` at `p + 1` and `0` at `p + 2`, `skipWhiteSpace` runs its body once (two
`readChar` calls), leaving the position at `p + 2` on the character `0`, and a call
returns the `Illegal` token `0` with the cursor still at `p + 2`; in every other
well-formed state `skipWhiteSpace` leaves the scanner unchanged. -/
theorem C18_skip_exact (l : Lexer) (fuel : Nat) (hw : WellFormed l) :
    (l.ch = 37 → l.input[l.position + 1]? = some 50 → l.input[l.position + 2]? = some 48 →
      readChars 2 l = .ok (cursor l.input (l.position + 2)) ∧
      skipWhiteSpace (fuel + 2) l = .ok (cursor l.input (l.position + 2)) ∧
      (cursor l.input (l.position + 2)).ch = 48 ∧
      NextToken (fuel + 2) l =
        .ok ({ Typ := Illegal, Literal := [48] }, cursor l.input (l.position + 2))) ∧
    (¬ (l.ch = 37 ∧ l.input[l.position + 1]? = some 50 ∧
        l.input[l.position + 2]? = some 48) →
      skipWhiteSpace (fuel + 1) l = .ok l) := by
  have hl := hw.eq_cursor
  generalize l.input = s at *
  generalize l.position = p at *
  subst hl
  constructor
  · intro h1 h2 h3
    have ha : AtEncodedSpace (cursor s p) := (atEncodedSpace_cursor_iff s p).mpr ⟨h1, h2, h3⟩
    have hsk : skipped (cursor s p) = cursor s (p + 2) := by
      unfold skipped
      rw [if_pos ha]
      rfl
    have h48 : s[p + 2]?.getD 0 = 48 := getD_eq_of_eq_some h3
    refine ⟨readChars_cursor s 2 p, ?_, h48, ?_⟩
    · rw [skipWhiteSpace_eq, hsk]
    · unfold NextToken
      simp only [skipWhiteSpace_eq, hsk, bind, Except.bind]
      exact dispatch_zero_digit h48 _
  · intro hn
    exact skipWhiteSpace_of_not fuel (fun ha => hn ((atEncodedSpace_cursor_iff s p).mp ha))

theorem C18_skip_exact_witness :
    (readChars 2 (cursor (bytes "%20a") 0) = .ok (cursor (bytes "%20a") 2) ∧
      skipWhiteSpace (0 + 2) (cursor (bytes "%20a") 0) = .ok (cursor (bytes "%20a") 2) ∧
      (cursor (bytes "%20a") 2).ch = 48 ∧
      NextToken (0 + 2) (cursor (bytes "%20a") 0) =
        .ok ({ Typ := Illegal, Literal := [48] }, cursor (bytes "%20a") 2)) ∧
    skipWhiteSpace (0 + 1) (cursor (bytes "%2a") 0) = .ok (cursor (bytes "%2a") 0) :=
  ⟨(C18_skip_exact (cursor (bytes "%20a") 0) 0 (wellFormed_cursor _ 0)).1 rfl rfl rfl,
   (C18_skip_exact (cursor (bytes "%2a") 0) 0 (wellFormed_cursor _ 0)).2 (by decide)⟩

/-! ## Lossless tokenization without quotes -/

theorem NextToken_punctuation {s : List Nat} {p b : Nat} (hb : s[p]?.getD 0 = b)
    (hm : b = 63 ∨ b = 61 ∨ b = 40 ∨ b = 41 ∨ b = 44) (fuel : Nat) :
    ∃ t, NextToken (fuel + 1) (cursor s p) = .ok (t, cursor s (p + 1)) ∧
      t.Literal = [b] ∧ t.Typ ≠ Illegal ∧ t.Typ ≠ Eof := by
  have hna : ¬ AtEncodedSpace (cursor s p) :=
    not_atEncodedSpace_of_ch (by rw [cursor_ch, hb]; omega)
  rw [NextToken_of_not hna]
  unfold dispatch
  simp only [advance_eq, step_cursor, cursor_ch, hb]
  rcases hm with h | h | h | h | h <;> subst h
  · exact ⟨_, rfl, rfl, by decide, by decide⟩
  · exact ⟨_, rfl, rfl, by decide, by decide⟩
  · exact ⟨_, rfl, rfl, by decide, by decide⟩
  · exact ⟨_, rfl, rfl, by decide, by decide⟩
  · exact ⟨_, rfl, rfl, by decide, by decide⟩

theorem keyword_or_identifier_ne (c : Prop) [Decidable c] :
    (if c then ("Keyword" : TokenType) else Identifier) ≠ Illegal ∧
      (if c then ("Keyword" : TokenType) else Identifier) ≠ Eof := by
  split_ifs
  · exact ⟨by decide, by decide⟩
  · exact ⟨by decide, by decide⟩

/-- From any offset of an input made of letters and `? = ( ) ,` only, finitely many
calls reach the end of the input, none returning `Illegal` or `Eof`, and the texts of
the returned tokens add up to the rest of the input. -/
theorem nextTokens_plain {s : List Nat}
    (hs : ∀ b ∈ s, isLetter b = true ∨ b = 63 ∨ b = 61 ∨ b = 40 ∨ b = 41 ∨ b = 44)
    (fuel : Nat) :
    ∀ (d p : Nat), p + d = s.length →
      ∃ n ts, n ≤ d ∧
        nextTokens (fuel + s.length + 1) n (cursor s p) = .ok (ts, cursor s s.length) ∧
        (∀ t ∈ ts, t.Typ ≠ Illegal ∧ t.Typ ≠ Eof) ∧
        (ts.map Token.Literal).flatten = s.drop p := by
  intro d
  induction d using Nat.strong_induction_on with
  | _ d ih =>
    intro p hpd
    by_cases hd : d = 0
    · subst hd
      have hp : p = s.length := by omega
      subst hp
      exact ⟨0, [], Nat.le_refl _, rfl, by simp, by simp⟩
    · have hp : p < s.length := by omega
      have hget : s[p]?.getD 0 = s[p] := by simp [List.getElem?_eq_getElem hp]
      rcases hs s[p] (List.getElem_mem hp) with hl | hm
      · have h0 : isLetter (s[p]?.getD 0) = true := by rw [hget]; exact hl
        have hrun := (letterRun_drop_of_letter h0).2
        have hle := letterRun_le (s.drop p)
        rw [List.length_drop] at hle
        have hN := NextToken_letter h0 (fuel + s.length - letterRun (s.drop p))
        rw [show fuel + s.length - letterRun (s.drop p) + letterRun (s.drop p) + 1 =
          fuel + s.length + 1 by omega] at hN
        obtain ⟨n, ts, hn, hts, hall, hcat⟩ :=
          ih (d - letterRun (s.drop p)) (by omega) (p + letterRun (s.drop p)) (by omega)
        refine ⟨n + 1,
          { Typ := if (s.drop p).take (letterRun (s.drop p)) ∈ reservedWords
                   then "Keyword" else Identifier,
            Literal := (s.drop p).take (letterRun (s.drop p)) } :: ts, by omega, ?_, ?_, ?_⟩
        · rw [nextTokens_succ_of_ok hN, hts]
          rfl
        · intro t ht
          rcases List.mem_cons.mp ht with rfl | ht
          · exact keyword_or_identifier_ne _
          · exact hall t ht
        · rw [List.map_cons, List.flatten_cons, hcat, ← List.drop_drop,
            List.take_append_drop]
      · have hb : s[p]?.getD 0 = s[p] := hget
        obtain ⟨t, hN, hlit, hty⟩ := NextToken_punctuation hb hm (fuel + s.length)
        obtain ⟨n, ts, hn, hts, hall, hcat⟩ := ih (d - 1) (by omega) (p + 1) (by omega)
        refine ⟨n + 1, t :: ts, by omega, ?_, ?_, ?_⟩
        · rw [nextTokens_succ_of_ok hN, hts]
          rfl
        · intro t' ht
          rcases List.mem_cons.mp ht with rfl | ht
          · exact hty
          · exact hall t' ht
        · rw [List.map_cons, List.flatten_cons, hcat, hlit, List.drop_eq_getElem_cons hp]
          rfl

/-- C19: for every input made only of ASCII letters and the bytes `? = ( ) ,`, some
number `n` of calls, at most the length of the input, return tokens none of which is
`Illegal` (or `Eof`) and whose texts concatenate to the input, and the next call, which
is at most call number `len(input) + 1`, returns `Eof`. -/
theorem C19_lossless_without_quotes (input : List Nat)
    (hs : ∀ b ∈ input, isLetter b = true ∨ b = 63 ∨ b = 61 ∨ b = 40 ∨ b = 41 ∨ b = 44)
    (fuel : Nat) :
    ∃ n ts l, n ≤ input.length ∧
      tokenize (fuel + input.length + 1) n input = .ok (ts, l) ∧
      (∀ t ∈ ts, t.Typ ≠ Illegal ∧ t.Typ ≠ Eof) ∧
      (ts.map Token.Literal).flatten = input ∧
      ∃ l', NextToken (fuel + input.length + 1) l =
        .ok ({ Typ := Eof, Literal := [32] }, l') := by
  obtain ⟨n, ts, hn, hts, hall, hcat⟩ :=
    nextTokens_plain hs fuel input.length 0 (Nat.zero_add _)
  refine ⟨n, ts, cursor input input.length, hn, ?_, hall, ?_, _,
    NextToken_at_end (Nat.le_refl _) _⟩
  · unfold tokenize
    simp only [New_cursor, bind, Except.bind]
    exact hts
  · rw [hcat, List.drop_zero]

theorem C19_lossless_without_quotes_witness :
    ∃ n ts l, n ≤ (bytes "a=(b)").length ∧
      tokenize (0 + (bytes "a=(b)").length + 1) n (bytes "a=(b)") = .ok (ts, l) ∧
      (∀ t ∈ ts, t.Typ ≠ Illegal ∧ t.Typ ≠ Eof) ∧
      (ts.map Token.Literal).flatten = bytes "a=(b)" ∧
      ∃ l', NextToken (0 + (bytes "a=(b)").length + 1) l =
        .ok ({ Typ := Eof, Literal := [32] }, l') :=
  C19_lossless_without_quotes (bytes "a=(b)") (by decide) 0

/-! ## The text of single-byte tokens -/

set_option maxRecDepth 100000 in
theorem utf8_bits : ∀ b, b < 256 → 128 ≤ b →
    192 + b / 64 = 0xC0 ||| (b >>> 6) ∧ 128 + b % 64 = 0x80 ||| (b &&& 0x3F) := by
  decide

/-- C20: the text of a token built by `newToken` is `string(ch)`, the UTF-8 encoding of
the code point numbered by the byte: for a byte `b` below 0x80 it is the one byte `b`;
for a byte `b` from 0x80 up it is the two bytes `0xC0 | (b >> 6)`, `0x80 | (b & 0x3F)`,
of length 2 and not contained in the one-byte string `b`, and such a byte under the
cursor always yields the `Illegal` token with that text. -/
theorem C20_byte_literal (tokenType : TokenType) (b : Nat) (hb : b < 256) :
    (b < 128 → (newToken tokenType b).Literal = [b]) ∧
    (128 ≤ b →
      (newToken tokenType b).Literal = [0xC0 ||| (b >>> 6), 0x80 ||| (b &&& 0x3F)] ∧
      (newToken tokenType b).Literal.length = 2 ∧
      ¬ ((newToken tokenType b).Literal <:+: [b]) ∧
      ∀ (l : Lexer) (fuel : Nat), l.ch = b →
        NextToken (fuel + 1) l =
          .ok ({ Typ := Illegal,
                 Literal := [0xC0 ||| (b >>> 6), 0x80 ||| (b &&& 0x3F)] }, l)) := by
  constructor
  · intro hlt
    simp [newToken, byteToString, hlt]
  · intro hge
    obtain ⟨e1, e2⟩ := utf8_bits b hb hge
    have hlit : ∀ ty, (newToken ty b).Literal =
        [0xC0 ||| (b >>> 6), 0x80 ||| (b &&& 0x3F)] := by
      intro ty
      simp only [newToken, byteToString, if_neg (Nat.not_lt.mpr hge)]
      rw [e1, e2]
    refine ⟨hlit _, by rw [hlit]; rfl, ?_, ?_⟩
    · intro hinf
      have := hinf.length_le
      rw [hlit] at this
      simp at this
    · intro l fuel hch
      subst hch
      have hl : isLetter l.ch = false := by
        simp only [isLetter, Bool.or_eq_false_iff, Bool.and_eq_false_iff,
          decide_eq_false_iff_not]
        omega
      have h := NextToken_illegal (l := l) (not_atEncodedSpace_of_ch (by omega))
        (by omega) (by omega) (by omega) (by omega) (by omega) (by omega) (by omega) hl fuel
      rw [h]
      congr 2
      have := hlit Illegal
      cases hnt : newToken Illegal l.ch with
      | mk ty lit =>
        rw [hnt] at this
        simp only at this
        have hty : ty = Illegal := by
          have := congrArg Token.Typ hnt
          exact this.symm
        rw [this, hty]

theorem C20_byte_literal_witness :
    (newToken ParamStart 63).Literal = [63] ∧
    ((newToken Illegal 200).Literal = [0xC0 ||| (200 >>> 6), 0x80 ||| (200 &&& 0x3F)] ∧
      (newToken Illegal 200).Literal.length = 2 ∧
      ¬ ((newToken Illegal 200).Literal <:+: [200]) ∧
      ∀ (l : Lexer) (fuel : Nat), l.ch = 200 →
        NextToken (fuel + 1) l =
          .ok ({ Typ := Illegal,
                 Literal := [0xC0 ||| (200 >>> 6), 0x80 ||| (200 &&& 0x3F)] }, l)) :=
  ⟨(C20_byte_literal ParamStart 63 (by decide)).1 (by decide),
   (C20_byte_literal Illegal 200 (by decide)).2 (by decide)⟩

end lexer
